import Mathlib

/-!
Verification development for the gazelle_cc core subsystems:
the `#if`-guard expression AST and its evaluation (parser/expr.go),
the platform condition solver (expr_eval.go), the platform macro table
(platform package), the lightweight C/C++ source parser (parser package)
and the source grouper (spec §4.4).

Shallow embedding conventions: Go maps are modelled as association lists
(`List (key × value)`) looked up front-to-back, or — for the global
read-only platform table — directly as lookup functions; Go sets are
`Finset`; Go `int` is `Int`; a Go function that can return an `error` is
modelled with an explicit error component; the reachable `panic` sites of
the code are modelled by dedicated result constructors.
-/

namespace GazelleCC

/-! ### Expression AST — parser/expr.go -/

/-- Comparison operator of a `Compare` node.  The Go code stores the
operator as a string documented to be one of `==`, `!=`, `<`, `<=`, `>`,
`>=` (any other string makes `Eval`/`Negate` panic and is unreachable from
the expression parser, which only builds operators accepted by
`isBinaryCompareOperator`); we model the closed set as an inductive. -/
inductive CmpOp where
  | eq | ne | lt | le | gt | ge
deriving DecidableEq, Repr

/-- `Value`: either a macro identifier or an integer literal. -/
inductive Value where
  | ident (name : String)
  | const (value : Int)
deriving DecidableEq, Repr

/-- `Compare` node payload: `Left Op Right`. -/
structure Compare where
  left : Value
  op : CmpOp
  right : Value
deriving DecidableEq, Repr

/-- AST for `#if` conditions: `Defined`, `Not`, `And`, `Or`, `Compare`. -/
inductive Expr where
  | defined (name : String)
  | not (x : Expr)
  | and (l r : Expr)
  | or (l r : Expr)
  | cmp (c : Compare)
deriving DecidableEq, Repr

/-- `Macros`: map from macro name to integer value (Go `map[string]int`),
modelled as an association list looked up front-to-back. -/
abbrev Macros := List (String × Int)

/-- Lookup in a `Macros` map; `none` means the macro is undefined. -/
def lookupMac : Macros → String → Option Int
  | [], _ => none
  | (k, v) :: rest, n => if k = n then some v else lookupMac rest n

/-- `Value.Resolve`: an `Ident` resolves to the macro value (with `false`
when undefined, in which case Go's map read yields the zero value 0);
a `Constant` resolves to itself. -/
def Value.resolveV : Value → Macros → Int × Bool
  | .ident n, m =>
    match lookupMac m n with
    | some v => (v, true)
    | none => (0, false)
  | .const c, _ => (c, true)

/-- Application of a comparison operator to two integers. -/
def CmpOp.apply : CmpOp → Int → Int → Bool
  | .eq, a, b => a = b
  | .ne, a, b => a ≠ b
  | .lt, a, b => a < b
  | .le, a, b => a ≤ b
  | .gt, a, b => a > b
  | .ge, a, b => a ≥ b

/-- `Compare.Eval`: resolve both sides (undefined → 0) and apply the
operator. -/
def Compare.evalC (c : Compare) (m : Macros) : Bool :=
  c.op.apply (c.left.resolveV m).1 (c.right.resolveV m).1

/-- `Expr.Eval`: truth of an expression under a macro set.  `Defined`
tests membership. -/
def Expr.evalE : Expr → Macros → Bool
  | .defined n, m => (lookupMac m n).isSome
  | .not x, m => !(x.evalE m)
  | .and l r, m => l.evalE m && r.evalE m
  | .or l r, m => l.evalE m || r.evalE m
  | .cmp c, m => c.evalC m

/-- `CmpOp` flip used by `Compare.Negate`: `== ↔ !=`, `< ↔ >=`, `<= ↔ >`. -/
def CmpOp.negate : CmpOp → CmpOp
  | .eq => .ne
  | .ne => .eq
  | .lt => .ge
  | .le => .gt
  | .gt => .le
  | .ge => .lt

/-- `Compare.Negate`: fresh node with the operator flipped. -/
def Compare.negate (c : Compare) : Compare :=
  { c with op := c.op.negate }

/-! ### Platforms — platform package -/

/-- A platform is an OS/architecture pair; both identifiers are strings. -/
structure Platform where
  os : String
  arch : String
deriving DecidableEq, Repr

/-- Byte-wise lexicographic strict order on (ASCII) strings, the order
`cmp.Compare` uses; defined on the character lists. -/
def strLtB : List Char → List Char → Bool
  | [], [] => false
  | [], _ :: _ => true
  | _ :: _, [] => false
  | a :: as, b :: bs =>
    if a.toNat < b.toNat then true
    else if b.toNat < a.toNat then false
    else strLtB as bs

/-- Strict string order. -/
def strLt (a b : String) : Prop :=
  strLtB a.toList b.toList = true

/-- Non-strict string order (`cmp.Compare ≤ 0`). -/
def strLe (a b : String) : Prop :=
  strLtB b.toList a.toList = false

/-- `ComparePlatform` ordering as a relation: first by OS, then by
architecture, both by string order. -/
def platLe (a b : Platform) : Prop :=
  strLt a.os b.os ∨ (a.os = b.os ∧ strLe a.arch b.arch)

instance : DecidableRel platLe := fun a b => by
  unfold platLe strLt strLe
  infer_instance

theorem strLtB_irrefl : ∀ l : List Char, strLtB l l = false
  | [] => rfl
  | a :: as => by simp [strLtB, strLtB_irrefl as]

theorem strLtB_eq_of_not :
    ∀ l m : List Char, strLtB l m = false → strLtB m l = false → l = m
  | [], [], _, _ => rfl
  | [], _ :: _, h, _ => by simp [strLtB] at h
  | _ :: _, [], _, h2 => by simp [strLtB] at h2
  | a :: as, b :: bs, h, h2 => by
    rw [strLtB] at h h2
    split at h
    · cases h
    · split at h
      · rename_i hab hba
        rw [if_pos hba] at h2
        cases h2
      · rename_i hab hba
        have hc : a = b := Char.eq_of_val_eq (UInt32.ext (show a.toNat = b.toNat by omega))
        subst hc
        rw [if_neg hab, if_neg hab] at h2
        rw [strLtB_eq_of_not as bs h h2]

theorem strLtB_trans :
    ∀ l m n : List Char, strLtB l m = true → strLtB m n = true → strLtB l n = true
  | [], [], _, h, _ => by simp [strLtB] at h
  | [], _ :: _, [], _, h2 => by simp [strLtB] at h2
  | [], _ :: _, _ :: _, _, _ => rfl
  | _ :: _, [], _, h, _ => by simp [strLtB] at h
  | _ :: _, _ :: _, [], _, h2 => by simp [strLtB] at h2
  | a :: as, b :: bs, c :: cs, h, h2 => by
    rw [strLtB] at h h2 ⊢
    split at h
    · rename_i hab
      split at h2
      · rename_i hbc
        rw [if_pos (by omega)]
      · split at h2
        · cases h2
        · rename_i hbc hcb
          have : b.toNat = c.toNat := by omega
          rw [if_pos (by omega)]
    · split at h
      · cases h
      · rename_i hab hba
        have hab2 : a.toNat = b.toNat := by omega
        split at h2
        · rename_i hbc
          rw [if_pos (by omega)]
        · split at h2
          · cases h2
          · rename_i hbc hcb
            have hbc2 : b.toNat = c.toNat := by omega
            rw [if_neg (by omega), if_neg (by omega)]
            exact strLtB_trans as bs cs h h2

theorem strLtB_asymm {l m : List Char} (h : strLtB l m = true) : strLtB m l = false := by
  by_contra h2
  rw [Bool.not_eq_false] at h2
  have := strLtB_trans l m l h h2
  rw [strLtB_irrefl] at this
  cases this

/-- Strings with equal character lists are equal. -/
theorem str_eq_of_toList_eq {a b : String} (h : a.toList = b.toList) : a = b := by
  cases a
  cases b
  exact congrArg String.mk h

/-- The falsity of the strict order is transitive (the order is total). -/
theorem strLtB_false_trans {l m n : List Char}
    (h1 : strLtB m l = false) (h2 : strLtB n m = false) : strLtB n l = false := by
  by_contra hc
  rw [Bool.not_eq_false] at hc
  cases hmn : strLtB m n with
  | true => rw [strLtB_trans m n l hmn hc] at h1; cases h1
  | false =>
    have hmn2 := strLtB_eq_of_not _ _ hmn h2
    rw [← hmn2] at hc
    rw [hc] at h1
    cases h1

instance : IsTrans Platform platLe where
  trans := by
    rintro a b c (h₁ | ⟨h₁, h₁'⟩) (h₂ | ⟨h₂, h₂'⟩)
    · exact Or.inl (strLtB_trans _ _ _ h₁ h₂)
    · exact Or.inl (h₂ ▸ h₁)
    · exact Or.inl (h₁ ▸ h₂)
    · exact Or.inr ⟨h₁.trans h₂, strLtB_false_trans h₁' h₂'⟩

instance : IsAntisymm Platform platLe where
  antisymm := by
    rintro ⟨ao, aa⟩ ⟨bo, ba⟩ (h₁ | ⟨h₁, h₁'⟩) (h₂ | ⟨h₂, h₂'⟩)
    · rw [strLt, strLtB_asymm h₂] at h₁; cases h₁
    · rw [strLt] at h₁
      simp only at h₂
      subst h₂
      rw [strLtB_irrefl] at h₁
      cases h₁
    · rw [strLt] at h₂
      simp only at h₁
      subst h₁
      rw [strLtB_irrefl] at h₂
      cases h₂
    · simp only at h₁ h₂
      subst h₁
      simp only [Platform.mk.injEq, true_and]
      exact str_eq_of_toList_eq (strLtB_eq_of_not _ _ h₂' h₁')

instance : IsTotal Platform platLe where
  total := by
    intro a b
    cases hab : strLtB a.os.toList b.os.toList with
    | true => exact Or.inl (Or.inl hab)
    | false =>
      cases hba : strLtB b.os.toList a.os.toList with
      | true => exact Or.inr (Or.inl hba)
      | false =>
        have hos := str_eq_of_toList_eq (strLtB_eq_of_not _ _ hab hba)
        cases haa : strLtB b.arch.toList a.arch.toList with
        | false => exact Or.inl (Or.inr ⟨hos, haa⟩)
        | true => exact Or.inr (Or.inr ⟨hos.symm, strLtB_asymm haa⟩)

/-- Per-platform macro map (Go `map[Platform]Macros`), modelled as an
association list with the platforms as keys. -/
abbrev PlatformMacros := List (Platform × Macros)

/-- Lookup of a platform's macro map. -/
def lookupPlat : PlatformMacros → Platform → Option Macros
  | [], _ => none
  | (k, v) :: rest, p => if k = p then some v else lookupPlat rest p

/-- The macro map of platform `p`; a missing key yields Go's zero value
(the nil map, i.e. no macro defined). -/
def macrosOf (pm : PlatformMacros) (p : Platform) : Macros :=
  (lookupPlat pm p).getD []

/-! ### Condition solver — expr_eval.go -/

/-- A single literal of the DNF: a presence test on `Macro` (possibly
`Negated`), or — when `Comparsion` is set — an arbitrary comparison.
(The Go field name `Comparsion` is kept.) -/
structure MacroTest where
  Macro : String
  Negated : Bool
  Comparsion : Option Compare
deriving DecidableEq, Repr

/-- `toNegationNormalForm`: push `Not` inward via De Morgan so that
negations wrap only atomic literals; `!!A → A`.  The Go function calls
itself on freshly built `Not` nodes; that self-call is defunctionalized
into a polarity flag to keep the recursion structural: `nnfAux e neg`
computes the normal form of `e` when `neg = false` and of `Not e` when
`neg = true`. -/
def nnfAux : Expr → Bool → Expr
  | .not x, neg => nnfAux x (!neg)
  | .and l r, neg =>
    if neg then .or (nnfAux l true) (nnfAux r true)
    else .and (nnfAux l false) (nnfAux r false)
  | .or l r, neg =>
    if neg then .and (nnfAux l true) (nnfAux r true)
    else .or (nnfAux l false) (nnfAux r false)
  | e, neg => if neg then .not e else e

/-- `toNegationNormalForm` proper. -/
def toNegationNormalForm (e : Expr) : Expr :=
  nnfAux e false

/-- `extractMacro`: name of the single macro referenced by a literal, with
a success flag; mirrors the Go function.  The Go code panics on non-literal
expressions (unreachable from `exprToDnf` after normalisation); those cases
return `("", false)` here. -/
def extractMacro : Expr → String × Bool
  | .defined n => (n, true)
  | .cmp c =>
    match extractValueMacro c.left, extractValueMacro c.right with
    | (ln, true), (_, false) => (ln, true)
    | (_, false), (rn, true) => (rn, true)
    | (ln, true), (rn, true) => if ln = rn then (ln, true) else ("", false)
    | _, _ => ("", false)
  | _ => ("", false)
where
  extractValueMacro : Value → String × Bool
    | .ident n => (n, true)
    | .const _ => ("", false)

/-- `exprToDnf`: distribute `And` over `Or` for an expression already in
negation normal form, producing the list of conjunctions of literals. -/
def exprToDnf : Expr → List (List MacroTest)
  | .and l r =>
    (exprToDnf l).flatMap fun lt => (exprToDnf r).map fun rt => lt ++ rt
  | .or l r => exprToDnf l ++ exprToDnf r
  | .not x =>
    match x with
    | .cmp c => [[⟨"", false, some c.negate⟩]]
    | _ => [[⟨(extractMacro x).1, true, none⟩]]
  | .cmp c => [[⟨"", false, some c⟩]]
  | e => [[⟨(extractMacro e).1, false, none⟩]]

/-- `toDNF`: normalise once, then distribute. -/
def toDNF (e : Expr) : List (List MacroTest) :=
  exprToDnf (toNegationNormalForm e)

/-- A set of platforms (Go `collections.Set`), modelled as a
duplicate-free list in insertion order; the Go set iterates in
unspecified order, and every use below is insensitive to that order up to
the final sort. -/
abbrev PlatSet := List Platform

/-- `Set.Add`. -/
def lsAdd (s : PlatSet) (p : Platform) : PlatSet :=
  if p ∈ s then s else s ++ [p]

/-- `collections.ToSet` of a list. -/
def listToSet (l : List Platform) : PlatSet :=
  l.foldl lsAdd []

/-- `Set.Join`: add all elements of the second set. -/
def lsJoin (s t : PlatSet) : PlatSet :=
  t.foldl lsAdd s

/-- `Set.Intersect`. -/
def lsInter (s t : PlatSet) : PlatSet :=
  s.filter fun p => p ∈ t

/-- `Set.Diff`. -/
def lsDiff (s t : PlatSet) : PlatSet :=
  s.filter fun p => p ∉ t

/-- Insertion into a `ComparePlatform`-sorted list. -/
def insertPlat (x : Platform) : List Platform → List Platform
  | [] => [x]
  | y :: ys => if platLe x y then x :: y :: ys else y :: insertPlat x ys

/-- `slices.SortFunc(…, platform.ComparePlatform)`, as insertion sort; on
duplicate-free input the sorted result is unique, so the model does not
depend on the algorithm used. -/
def sortPlats : List Platform → List Platform
  | [] => []
  | x :: xs => insertPlat x (sortPlats xs)

/-- `platformsForMacro`: the set of platforms whose macro map defines
`name` (built in table order; the Go map-range order is irrelevant after
sorting). -/
def platformsForMacro (name : String) (pm : PlatformMacros) : PlatSet :=
  pm.foldl (fun acc q => if (lookupMac q.2 name).isSome then lsAdd acc q.1 else acc) []

/-- One conjunction of the DNF evaluated against the remaining platform
set: comparisons go through the per-platform slow path, presence literals
through the set-algebra fast path with the early exit on the empty set. -/
def evalConjunct (pm : PlatformMacros) : List MacroTest → PlatSet → PlatSet
  | [], s => s
  | lit :: rest, s =>
    match lit.Comparsion with
    | some c =>
      -- Slow path: evaluate the comparison for every remaining platform.
      evalConjunct pm rest (s.filter fun p => c.evalC (macrosOf pm p) = !lit.Negated)
    | none =>
      -- Fast path: set intersection (macro defined) or difference (not defined).
      let ms := platformsForMacro lit.Macro pm
      let s1 := if lit.Negated then lsDiff s ms else lsInter s ms
      -- Early exit: an empty set can never be revived later in the conjunction.
      if s1 = [] then s1 else evalConjunct pm rest s1

/-- `PlatformsForExpr`: platforms on which the expression evaluates true.
`none` (Go nil expression) means the include applies to every platform and
yields a nil slice, modelled as `none`; otherwise the result is always a
(possibly empty) list, sorted by `ComparePlatform`.  The Go set's
`Values()` call yields a nil slice exactly when the set is empty, and the
code replaces that nil by an empty slice before sorting. -/
def PlatformsForExpr (e : Option Expr) (pm : PlatformMacros) : Option (List Platform) :=
  match e with
  | none => none
  | some e =>
    let d := toDNF e
    let enabledPlatforms := pm.map Prod.fst
    let matched : PlatSet :=
      d.foldl (fun acc conj => lsJoin acc (evalConjunct pm conj (listToSet enabledPlatforms))) []
    let rawValues : Option (List Platform) :=
      if matched = [] then none else some matched
    -- nil-slice fixup: "at this point result should never be nil"
    let result := rawValues.getD []
    some (sortPlats result)

/-! ### Platform macro table — platform package `init`

The Go table is a `map[Platform]Macros` populated once at start-up by a
sequence of `addMacro` calls; since it is read-only afterwards we model it
directly by its lookup function `Platform → String → Option Int`
(`none` = macro not defined on that platform). -/

/-- Lookup-function view of `KnownPlatformMacros`. -/
abbrev PlatTable := Platform → String → Option Int

/-- `addMacroValue`: define macro `name` with `value` on every platform of
the list (later additions shadow earlier ones, matching map writes). -/
def addMacroValue (name : String) (value : Int) (platforms : List Platform)
    (t : PlatTable) : PlatTable :=
  fun p m => if p ∈ platforms ∧ m = name then some value else t p m

/-- `addMacro`: a bare `#define NAME` is assumed equal to `#define NAME 1`. -/
def addMacro (name : String) (platforms : List Platform) (t : PlatTable) : PlatTable :=
  addMacroValue name 1 platforms t

/-- `addMacros`: add each name of the list on the same platforms. -/
def addMacros (names : List String) (platforms : List Platform) (t : PlatTable) : PlatTable :=
  names.foldl (fun t n => addMacro n platforms t) t

/-- `osArchPlatform`. -/
def osArchPlatform (os arch : String) : List Platform := [⟨os, arch⟩]

/-- `platformsMatrix`: all OS/arch combinations of the two lists. -/
def platformsMatrix (oss archs : List String) : List Platform :=
  oss.flatMap fun os => archs.map fun arch => ⟨os, arch⟩

/-- `osArchPlatforms`: the given architectures of one OS plus the OS-only
sentinel platform `{os, ""}`. -/
def osArchPlatforms (os : String) (archs : List String) : List Platform :=
  platformsMatrix [os] archs ++ [⟨os, ""⟩]

/-- `archOsPlatforms`: one architecture across the given OSes plus the
arch-only sentinel platform `{"", arch}`. -/
def archOsPlatforms (arch : String) (oss : List String) : List Platform :=
  platformsMatrix oss [arch] ++ [⟨"", arch⟩]

/-- `allKnownOs`. -/
def allKnownOs : List String :=
  ["android", "chromiumos", "emscripten", "freebsd", "fuchsia", "haiku", "ios",
   "linux", "netbsd", "nixos", "none", "openbsd", "osx", "qnx", "tvos",
   "uefi", "visionos", "vxworks", "wasi", "watchos", "windows"]

/-- `allKnownArch`. -/
def allKnownArch : List String :=
  ["aarch32", "aarch64", "arm64_32", "arm64e", "armv6-m", "armv7", "armv7e-m",
   "armv7e-mf", "armv7k", "armv7-m", "armv8-m", "cortex-r52", "cortex-r82",
   "i386", "mips64", "ppc", "ppc32", "ppc64le", "riscv32", "riscv64", "s390x",
   "wasm32", "wasm64", "x86_32", "x86_64"]

/-- `applePlatforms`: macOS, iOS, tvOS, watchOS and visionOS platform lists
concatenated (each with its OS-only sentinel). -/
def applePlatforms : List Platform :=
  osArchPlatforms "osx" ["x86_64", "aarch64", "arm64e"] ++
  osArchPlatforms "ios" ["aarch64", "arm64e"] ++
  osArchPlatforms "tvos" ["aarch64"] ++
  osArchPlatforms "watchos" ["armv7k", "arm64_32"] ++
  osArchPlatforms "visionos" ["aarch64"]

/-- `KnownPlatformMacros`: the table built by the platform package's `init`
function, with the `addMacro`/`addMacros` calls applied in program order. -/
def KnownPlatformMacros : PlatTable :=
  -- Windows
  (fun _ _ => none)
  |> addMacro "_WIN32" (osArchPlatforms "windows" ["i386", "x86_32", "x86_64", "aarch32", "aarch64"])
  |> addMacro "_WIN64" (osArchPlatforms "windows" ["x86_64", "aarch64"])
  |> addMacro "__MINGW32__" (osArchPlatform "windows" "i386")
  |> addMacro "__MINGW64__" (osArchPlatform "windows" "x86_64")
  |> addMacro "_M_IX86" (osArchPlatform "windows" "i386")
  |> addMacro "_M_X64" (osArchPlatform "windows" "x86_64")
  |> addMacro "_M_ARM" (osArchPlatform "windows" "aarch32")
  |> addMacro "_M_ARM64" (osArchPlatform "windows" "aarch64")
  -- Linux / Android family
  |> addMacros ["linux", "__linux__", "__linux", "__gnu_linux__"]
      (osArchPlatforms "linux" allKnownArch)
  |> addMacro "__NIX__" (osArchPlatforms "nixos" allKnownArch)
  |> addMacro "__NIXOS__" (osArchPlatforms "nixos" allKnownArch)
  |> addMacro "__ANDROID__" (osArchPlatforms "android" ["aarch32", "aarch64", "x86_32", "x86_64", "riscv64"])
  |> addMacro "__CHROMEOS__" (osArchPlatforms "chromiumos" ["x86_64", "aarch64", "riscv64"])
  |> addMacros ["unix", "__unix", "__unix__"]
      (platformsMatrix ["linux", "android", "chromiumos", "nixos", "freebsd", "netbsd", "openbsd", "haiku", "qnx"] allKnownArch)
  -- WebAssembly (Emscripten & WASI)
  |> addMacro "__EMSCRIPTEN__" (platformsMatrix ["emscripten"] ["wasm32", "wasm64"])
  |> addMacro "__wasi__" (platformsMatrix ["wasi"] ["wasm32", "wasm64"])
  |> addMacro "__wasm__" (platformsMatrix ["emscripten", "wasi"] ["wasm32", "wasm64"])
  |> addMacro "__wasm32__" (platformsMatrix ["emscripten", "wasi"] ["wasm32"])
  |> addMacro "__wasm64__" (platformsMatrix ["emscripten", "wasi"] ["wasm64"])
  -- BSD family
  |> addMacro "__FreeBSD__" (platformsMatrix ["freebsd"] ["i386", "x86_64", "aarch64", "riscv64", "ppc64le"])
  |> addMacro "__NetBSD__" (platformsMatrix ["netbsd"] ["i386", "x86_64", "aarch64", "riscv64", "ppc64le"])
  |> addMacro "__OpenBSD__" (platformsMatrix ["openbsd"] ["i386", "x86_64", "aarch64", "riscv64", "ppc64le"])
  -- QNX, Haiku, Fuchsia, VxWorks, UEFI
  |> addMacro "__QNX__" (osArchPlatforms "qnx" ["aarch32", "aarch64", "ppc32", "ppc64le", "x86_32", "x86_64"])
  |> addMacro "__QNXNTO__" (osArchPlatforms "qnx" ["aarch32", "aarch64", "ppc32", "ppc64le", "x86_32", "x86_64"])
  |> addMacro "__HAIKU__" (osArchPlatforms "haiku" ["x86_32", "x86_64"])
  |> addMacro "__FUCHSIA__" (osArchPlatforms "fuchsia" ["aarch64", "x86_64"])
  |> addMacro "__Fuchsia__" (osArchPlatforms "fuchsia" ["aarch64", "x86_64"])
  |> addMacro "__VXWORKS__" (osArchPlatforms "vxworks" ["aarch32", "aarch64", "ppc32", "ppc64le", "x86_32", "x86_64"])
  |> addMacro "__vxworks" (osArchPlatforms "vxworks" ["aarch32", "aarch64", "ppc32", "ppc64le", "x86_32", "x86_64"])
  |> addMacro "__UEFI__" (osArchPlatforms "uefi" ["aarch32", "aarch64", "x86_32", "x86_64", "riscv64"])
  |> addMacro "__EFI__" (osArchPlatforms "uefi" ["aarch32", "aarch64", "x86_32", "x86_64", "riscv64"])
  -- Apple family
  |> addMacro "__APPLE__" applePlatforms
  |> addMacro "__MACH__" applePlatforms
  |> addMacro "TARGET_OS_OSX" (osArchPlatforms "osx" ["x86_64", "aarch64", "arm64e"])
  |> addMacro "TARGET_OS_MAC" (osArchPlatforms "osx" ["x86_64", "aarch64", "arm64e"])
  |> addMacro "TARGET_OS_IPHONE" (osArchPlatforms "ios" ["aarch64", "arm64e"])
  |> addMacro "TARGET_OS_IOS" (osArchPlatforms "ios" ["aarch64", "arm64e"])
  |> addMacro "TARGET_OS_TV" (osArchPlatforms "tvos" ["aarch64"])
  |> addMacro "TARGET_OS_WATCH" (osArchPlatforms "watchos" ["armv7k", "arm64_32"])
  |> addMacro "TARGET_OS_VISION" (osArchPlatforms "visionos" ["aarch64"])
  -- Generic CPU-only macros.  Note: the list for the x86-64 macro family is
  -- built with architecture "aarch64" in the source.
  |> addMacros ["__x86_64__", "__x86_64", "__amd64", "__amd64__"]
      (archOsPlatforms "aarch64" allKnownOs)
  |> addMacros ["__i386__", "__i386"] (archOsPlatforms "i386" allKnownOs)
  |> addMacros ["__arm__", "__arm", "__thumb__", "__thumb"]
      (archOsPlatforms "aarch32" allKnownOs)
  |> addMacros ["__aarch64__", "__arm64", "__arm64__"]
      (archOsPlatforms "aarch64" allKnownOs)
  |> addMacros ["__ARM64_32__", "__ARM64_32"] (osArchPlatform "watchos" "arm64_32")
  |> addMacros ["__arm64e__", "__arm64e"] (archOsPlatforms "arm64e" ["osx", "ios"])
  -- Fine-grained Arm (mostly bare-metal)
  |> addMacro "__ARM_ARCH_6M__" (osArchPlatform "none" "armv6-m")
  |> addMacro "__ARM_ARCH_7__" (osArchPlatform "none" "armv7")
  |> addMacro "__ARM_ARCH_7A__" (osArchPlatform "none" "armv7")
  |> addMacro "__ARM_ARCH_7M__" (osArchPlatform "none" "armv7-m")
  |> addMacro "__ARM_ARCH_7EM__" (osArchPlatform "none" "armv7e-m")
  |> addMacro "__ARM_ARCH_8M_BASE__" (osArchPlatform "none" "armv8-m")
  |> addMacro "__ARM_ARCH_8M_MAIN__" (osArchPlatform "none" "armv8-m")
  -- PowerPC
  |> addMacro "__powerpc__" (archOsPlatforms "ppc32" ["linux", "freebsd", "netbsd", "openbsd", "qnx", "vxworks"])
  |> addMacro "__PPC__" (archOsPlatforms "ppc32" ["linux", "freebsd", "netbsd", "openbsd", "qnx", "vxworks"])
  |> addMacro "__powerpc64__" (archOsPlatforms "ppc64le" ["linux", "freebsd", "netbsd", "openbsd", "qnx", "vxworks"])
  |> addMacro "__ppc64__" (archOsPlatforms "ppc64le" ["linux", "freebsd", "netbsd", "openbsd", "qnx", "vxworks"])
  -- MIPS
  |> addMacro "__mips64" (archOsPlatforms "mips64" ["linux", "netbsd", "openbsd", "qnx", "vxworks"])
  -- s390
  |> addMacro "__s390x__" (osArchPlatform "linux" "s390x")
  |> addMacro "__s390__" (osArchPlatform "linux" "s390x")
  -- RISC-V
  |> addMacro "__riscv" (archOsPlatforms "riscv64" ["linux", "freebsd", "netbsd", "openbsd", "qnx", "vxworks", "android", "chromiumos", "fuchsia", "nixos"])

/-! ### Source parser — parser package

The parser is modelled at byte level for ASCII input (Go reads bytes and
casts to runes; all characters of interest are ASCII).  The `bufio.Scanner`
driving the tokenizer is modelled by repeatedly applying the split function
to the full remaining input with `atEOF = true` — for an in-memory
`strings.Reader` the scanner eventually holds the whole input, and the
final `io.EOF` returned by the split function makes `Scan` stop with a nil
`Err()`.  Loops whose termination measure is the shrinking input are
embedded with explicit fuel (one unit per iteration, supplied as the input
length plus one, which every run stays below since each iteration consumes
input); running out of fuel yields a dedicated artefact value that no
evaluation below ever produces. -/

/-- The `<EOL>` marker token (a real `<EOL>` in the input cannot collide:
the tokenizer splits `<` off as its own token). -/
def EOL : String := "<EOL>"

/-- `isParanthesis` (Go spelling kept). -/
def isParanthesis (c : Char) : Bool :=
  c = '(' || c = ')' || c = '[' || c = ']' || c = '{' || c = '}'

/-- `unicode.IsSpace` restricted to byte-range code points, as the Go
tokenizer applies it to single bytes: `\t \n \v \f \r` space, NEL, NBSP. -/
def isSpaceGo (c : Char) : Bool :=
  c.toNat = 9 || c.toNat = 10 || c.toNat = 11 || c.toNat = 12 ||
  c.toNat = 13 || c.toNat = 32 || c.toNat = 133 || c.toNat = 160

/-- The four characters that begin a (possibly two-character) operator
token. -/
def isOpChar (c : Char) : Bool :=
  c = '!' || c = '=' || c = '<' || c = '>'

/-- A character that ends the default run-of-characters token. -/
def isTokenBreak (c : Char) : Bool :=
  c = '\n' || isOpChar c || isSpaceGo c || isParanthesis c

/-- Skipping of a `/* … */` block comment body (the opening `/*` already
consumed).  When the comment is unterminated the Go loop stops with one
character left, which is then re-processed as ordinary input. -/
def skipBlockComment : List Char → List Char
  | [] => []
  | [c] => [c]
  | '*' :: '/' :: rest => rest
  | _ :: c :: rest => skipBlockComment (c :: rest)

/-- The skipping phase of the tokenizer loop: line comments, block
comments and whitespace other than `\n` (the newline is checked first in
the Go switch and always emits the `<EOL>` marker).  Each iteration
consumes at least one character, so the fuel is never exhausted below. -/
def skipJunkF : Nat → List Char → List Char
  | 0, l => l
  | _, [] => []
  | fuel + 1, '/' :: '/' :: rest => skipJunkF fuel (rest.dropWhile fun ch => ch ≠ '\n')
  | fuel + 1, '/' :: '*' :: rest => skipJunkF fuel (skipBlockComment rest)
  | fuel + 1, c :: rest =>
    if c ≠ '\n' ∧ isSpaceGo c then skipJunkF fuel rest else c :: rest

/-- One step of the tokenizer split function: the next token and the
remaining input, or `none` at end of input.  The Go loop interleaves the
skipping cases with the emitting cases; it is modelled as the skipping
phase `skipJunkF` followed by the emission switch (the `<EOL>` marker for a
newline, parentheses, one/two character operators, default character run),
which the Go loop performs on the first non-skipped character. -/
def nextTok (l : List Char) : Option (String × List Char) :=
  match skipJunkF l.length l with
  | [] => none
  | c :: rest =>
    if c = '\n' then some (EOL, rest)
    else if isParanthesis c then some (c.toString, rest)
    else if isOpChar c then
      -- two-character operator?
      if rest.head? = some '=' then some (String.mk [c, '='], rest.tail)
      else some (c.toString, rest)
    else
      some (String.mk (c :: rest.takeWhile fun ch => ¬ isTokenBreak ch),
        rest.dropWhile fun ch => ¬ isTokenBreak ch)

/-- The scanner loop emitting the token list (each emitted token consumes
at least one character, so fuel `l.length + 1` is never exhausted). -/
def tokenizeF : Nat → List Char → List String
  | 0, _ => []
  | fuel + 1, l =>
    match nextTok l with
    | none => []
    | some (t, r) => t :: tokenizeF fuel r

/-- The token list of an input. -/
def tokenize (l : List Char) : List String :=
  tokenizeF (l.length + 1) l

/-! #### Parser data types and state -/

/-- An extracted `#include`. -/
structure Include where
  path : String
  isSystemInclude : Bool
  condition : Option Expr
deriving DecidableEq, Repr

/-- The result of parsing one translation unit. -/
structure SourceInfo where
  includes : List Include
  hasMain : Bool
deriving DecidableEq, Repr

/-- The mutable parser state: accumulated result, last seen token, the
condition stack (top at the end, as the Go slices grow) and the per-block
group stack of already-seen branch expressions. -/
structure PState where
  sourceInfo : SourceInfo
  lastToken : String
  conditionStack : List Expr
  exprGroupStack : List (List Expr)
deriving DecidableEq, Repr

/-- Fresh parser state. -/
def initPState : PState := ⟨⟨[], false⟩, "", [], []⟩

/-- The identities of the `fmt.Errorf` sites of the parser. -/
inductive PErr where
  | expectedIdentEOF
  | unexpectedEOFInclude
  | unexpectedEOFBracket
  | expectedMoreTokens
  | consumeFail (expected got : String)
  | notValueToken
deriving DecidableEq, Repr

/-- `currentGuard`: AND-conjunction of the condition stack, oldest first;
`none` when the stack is empty. -/
def currentGuard (p : PState) : Option Expr :=
  match p.conditionStack with
  | [] => none
  | c :: cs => some (cs.foldl Expr.and c)

/-- `pushCondition`. -/
def pushCondition (e : Expr) (p : PState) : PState :=
  { p with conditionStack := p.conditionStack ++ [e] }

/-- `popCondition`: reports whether something was popped. -/
def popCondition (p : PState) : Bool × PState :=
  if p.conditionStack.isEmpty then (false, p)
  else (true, { p with conditionStack := p.conditionStack.dropLast })

/-- `currentGroup`: the innermost block's seen-branch list (Go returns the
nil slice when the stack is empty, modelled as `none`). -/
def currentGroup (p : PState) : Option (List Expr) :=
  p.exprGroupStack.getLast?

/-- `pushNewGroup`. -/
def pushNewGroup (e : Expr) (p : PState) : PState :=
  { p with exprGroupStack := p.exprGroupStack ++ [[e]] }

/-- `appendToCurrentGroup`; `none` models the Go `log.Panic` on an empty
group stack (all callers guard on `currentGroup ≠ nil`). -/
def appendToCurrentGroup (e : Expr) (p : PState) : Option PState :=
  match p.exprGroupStack.getLast? with
  | none => none
  | some g =>
    some { p with exprGroupStack := p.exprGroupStack.dropLast ++ [g ++ [e]] }

/-- `popGroup`: reports whether something was popped. -/
def popGroup (p : PState) : Bool × PState :=
  if p.exprGroupStack.isEmpty then (false, p)
  else (true, { p with exprGroupStack := p.exprGroupStack.dropLast })

/-- `orAll`: left fold of `Or`, oldest first; `none` models the Go
`log.Panicf("empty orAll")`. -/
def orAll : List Expr → Option Expr
  | [] => none
  | x :: xs => some (xs.foldl Expr.or x)

/-- Appending a parsed include to the accumulated result, with the current
guard attached. -/
def addIncludeCore (path : String) (isSys : Bool) (p : PState) : PState :=
  { p with sourceInfo :=
      { p.sourceInfo with
        includes := p.sourceInfo.includes ++ [⟨path, isSys, currentGuard p⟩] } }

/-- `handleIfdef` after its identifier has been read: build the
`Defined`/`!Defined` expression, push it and open a new group. -/
def handleIfdefCore (isNdef : Bool) (ident : String) (p : PState) : PState :=
  let expr := if isNdef then Expr.not (.defined ident) else .defined ident
  pushNewGroup expr (pushCondition expr p)

/-- `handleIf` after its expression has been parsed. -/
def handleIfCore (e : Expr) (p : PState) : PState :=
  pushNewGroup e (pushCondition e p)

/-- `handleElse`: pop the branch, push the negation of the disjunction of
the seen branch expressions and record it in the group.  Malformed input
(nothing to pop, or no open group) is silently ignored — note that the Go
`||` evaluates `popCondition` first, so with a non-empty condition stack
but empty group stack the pop still happens.  `none` models the panic
inside `orAll`/`appendToCurrentGroup` (unreachable: groups are built
non-empty). -/
def handleElse (p : PState) : Option PState :=
  let cur := currentGroup p
  let pr := popCondition p
  match pr.1, cur with
  | false, _ => some pr.2
  | true, none => some pr.2
  | true, some g =>
    match orAll g with
    | none => none
    | some o =>
      let neg := Expr.not o
      appendToCurrentGroup neg (pushCondition neg pr.2)

/-- The common prefix of `handleElif`: read the current group and pop the
branch condition; `none` in the first component signals the silently
ignored malformed case (the directive's argument is then not consumed). -/
def elifGuard (p : PState) : Option (List Expr) × PState :=
  let cur := currentGroup p
  let pr := popCondition p
  match pr.1, cur with
  | true, some g => (some g, pr.2)
  | _, _ => (none, pr.2)

/-- The tail of `handleElif` once its branch expression is available: push
`And(new, Not(Or(seen…)))` and record only the raw new expression in the
group. -/
def handleElifPush (e : Expr) (g : List Expr) (p : PState) : Option PState :=
  match orAll g with
  | none => none
  | some o => appendToCurrentGroup e (pushCondition (.and e (.not o)) p)

/-- `#endif`: pop the branch condition and discard this block's group. -/
def handleEndifCore (p : PState) : PState :=
  (popGroup (popCondition p).2).2

/-! #### Directive-level semantics

`parseDirective` reads a directive's argument tokens and then manipulates
the two stacks; the stack manipulation itself is captured by `runDir`,
acting on directives whose arguments are already parsed.  The token-level
`parseDirective` below is built from exactly the same core functions. -/

/-- A directive with its argument already parsed. -/
inductive Dir where
  | dinclude (path : String) (isSys : Bool)
  | difdef (name : String)
  | difndef (name : String)
  | dif (e : Expr)
  | delse
  | delif (e : Expr)
  | delifdef (name : String)
  | delifndef (name : String)
  | dendif
deriving DecidableEq, Repr

/-- Effect of one directive on the parser state (`none` = panic). -/
def runDir : Dir → PState → Option PState
  | .dinclude path sys, p => some (addIncludeCore path sys p)
  | .difdef n, p => some (handleIfdefCore false n p)
  | .difndef n, p => some (handleIfdefCore true n p)
  | .dif e, p => some (handleIfCore e p)
  | .delse, p => handleElse p
  | .delif e, p =>
    match elifGuard p with
    | (none, p1) => some p1
    | (some g, p1) => handleElifPush e g p1
  | .delifdef n, p =>
    match elifGuard p with
    | (none, p1) => some p1
    | (some g, p1) => handleElifPush (.defined n) g p1
  | .delifndef n, p =>
    match elifGuard p with
    | (none, p1) => some p1
    | (some g, p1) => handleElifPush (.not (.defined n)) g p1
  | .dendif, p => some (handleEndifCore p)

/-- Effect of a directive sequence (stops at a panic). -/
def runDirs : List Dir → PState → Option PState
  | [], p => some p
  | d :: ds, p =>
    match runDir d p with
    | none => none
    | some p' => runDirs ds p'

/-- Directive sequences that may appear inside an open block: includes,
branch switches of that block, and complete nested `#if…#endif` blocks
(with any of the opening and branch-switching forms). -/
inductive BDirs : List Dir → Prop
  | nil : BDirs []
  | inc (path : String) (sys : Bool) {ds : List Dir} :
      BDirs ds → BDirs (.dinclude path sys :: ds)
  | selse {ds : List Dir} : BDirs ds → BDirs (.delse :: ds)
  | selif (e : Expr) {ds : List Dir} : BDirs ds → BDirs (.delif e :: ds)
  | selifdef (n : String) {ds : List Dir} : BDirs ds → BDirs (.delifdef n :: ds)
  | selifndef (n : String) {ds : List Dir} : BDirs ds → BDirs (.delifndef n :: ds)
  | blk (e : Expr) {body ds : List Dir} :
      BDirs body → BDirs ds → BDirs (.dif e :: (body ++ .dendif :: ds))
  | blkdef (n : String) {body ds : List Dir} :
      BDirs body → BDirs ds → BDirs (.difdef n :: (body ++ .dendif :: ds))
  | blkndef (n : String) {body ds : List Dir} :
      BDirs body → BDirs ds → BDirs (.difndef n :: (body ++ .dendif :: ds))

/-- Neutral directive sequences: includes and complete nested
`#if…#endif` blocks only — the shape of the text separating an outer
branch opener from the outer `#else`/`#elif` in C2. -/
inductive NDirs : List Dir → Prop
  | nil : NDirs []
  | inc (path : String) (sys : Bool) {ds : List Dir} :
      NDirs ds → NDirs (.dinclude path sys :: ds)
  | blk (e : Expr) {body ds : List Dir} :
      BDirs body → NDirs ds → NDirs (.dif e :: (body ++ .dendif :: ds))
  | blkdef (n : String) {body ds : List Dir} :
      BDirs body → NDirs ds → NDirs (.difdef n :: (body ++ .dendif :: ds))
  | blkndef (n : String) {body ds : List Dir} :
      BDirs body → NDirs ds → NDirs (.difndef n :: (body ++ .dendif :: ds))

/-! #### Token reading -/

/-- `tokenReader.next()`: the next token with `<EOL>` markers skipped. -/
def nextSkipEOL : List String → Option (String × List String)
  | [] => none
  | t :: rest => if t = EOL then nextSkipEOL rest else some (t, rest)

/-- `parseIdent`: the next token, skipping line continuations (the
`next()` EOL-skipping is inlined to make the recursion structural); fails
at EOF. -/
def parseIdent : List String → Except PErr (String × List String)
  | [] => .error .expectedIdentEOF
  | t :: rest =>
    if t = EOL then parseIdent rest
    else if t = "\\" then parseIdent rest
    else .ok (t, rest)

/-- Result of an expression-parser step.  `panicked` models the Go panics
(`tokensStream.next` on an exhausted stream); `outOfFuel` is the
fuel-embedding artefact and is never produced for the fuel supplied below. -/
inductive PRes (α : Type) where
  | panicked
  | outOfFuel
  | errored (e : PErr)
  | success (a : α)
deriving DecidableEq, Repr

/-- The token-collection loop of `parseExpr`: read raw tokens (keeping
`<EOL>`) until the end of the logical line; a `\` continuation is dropped
and — because the Go `peek()` skips and discards `<EOL>` markers while
looking ahead — parsing continues on the next line.  (The Go branch that
would explicitly consume an `<EOL>` returned by `peek` is dead code, since
`peek` never yields the marker.)  EOF yields the "expected more tokens"
error. -/
def collectExprTokensF : Nat → List String → PRes (List String × List String)
  | 0, _ => .outOfFuel
  | _, [] => .errored .expectedMoreTokens
  | fuel + 1, t :: rest =>
    if t = EOL then .success ([], rest)
    else if t = "\\" then collectExprTokensF fuel (rest.dropWhile fun s => s = EOL)
    else
      match collectExprTokensF fuel rest with
      | .success (collected, r) => .success (t :: collected, r)
      | other => other

/-! #### Tokens-stream expression parser -/

/-- `tokensStream`: the collected logical-line tokens with a read index. -/
structure TokStream where
  tokens : List String
  idx : Nat
deriving DecidableEq, Repr

/-- `tokensStream.peek`: test the current token without consuming it. -/
def TokStream.peekTok (ts : TokStream) (s : String) : Bool :=
  decide (ts.idx < ts.tokens.length) && decide (ts.tokens.getD ts.idx "" = s)

/-- `tokensStream.consume`: advance past the expected token or report the
mismatch. -/
def TokStream.consume (ts : TokStream) (s : String) : Except PErr TokStream :=
  if ts.peekTok s then .ok { ts with idx := ts.idx + 1 }
  else .error (.consumeFail s (ts.tokens.getD ts.idx "<EOF>"))

/-- `tokensStream.next`; `none` models the Go
`panic("unexpected EOL in expression")` on an exhausted stream. -/
def TokStream.nextT (ts : TokStream) : Option (String × TokStream) :=
  if h : ts.idx < ts.tokens.length then
    some (ts.tokens.get ⟨ts.idx, h⟩, { ts with idx := ts.idx + 1 })
  else none

/-- Mapping of an operator token to its `CmpOp`. -/
def toCmpOp : String → Option CmpOp
  | "==" => some .eq
  | "!=" => some .ne
  | "<" => some .lt
  | "<=" => some .le
  | ">" => some .gt
  | ">=" => some .ge
  | _ => none

/-- `isBinaryCompareOperator`. -/
def isBinaryCompareOperator (tok : String) : Bool :=
  (toCmpOp tok).isSome

/-- `macroIdentifierRegex`: first character letter or underscore, rest
letters, digits or underscores (ASCII, as in the Go regex). -/
def isMacroIdent (s : String) : Bool :=
  match s.toList with
  | [] => false
  | c :: cs => (c.isAlpha || c = '_') && cs.all fun ch => ch.isAlphanum || ch = '_'

/-- Value of one digit character, accepting the hexadecimal letters. -/
def digitValue (c : Char) : Option Nat :=
  if '0' ≤ c ∧ c ≤ '9' then some (c.toNat - '0'.toNat)
  else if 'a' ≤ c ∧ c ≤ 'f' then some (c.toNat - 'a'.toNat + 10)
  else if 'A' ≤ c ∧ c ≤ 'F' then some (c.toNat - 'A'.toNat + 10)
  else none

/-- Digits of the given base folded into a number; fails on an empty or
invalid digit string. -/
def parseDigits (base : Nat) : List Char → Option Nat
  | [] => none
  | cs => go cs 0
where
  go : List Char → Nat → Option Nat
    | [], acc => some acc
    | c :: cs, acc =>
      match digitValue c with
      | some d => if d < base then go cs (acc * base + d) else none
      | none => none

/-- `parseIntLiteral`: strip `U`/`L` suffix characters, then parse with
`strconv.ParseInt` base-0 rules — optional sign, then `0x`/`0X` hex,
`0b`/`0B` binary, `0o`/`0O` octal, a leading `0` octal, decimal otherwise,
with the 64-bit signed range check.  (Digit-separating underscores are not
modelled.) -/
def parseIntLiteral (tok : String) : Option Int :=
  let cs := ((tok.toList.reverse.dropWhile fun c =>
    c = 'u' || c = 'U' || c = 'l' || c = 'L').reverse)
  let sb : Bool × List Char :=
    match cs with
    | '+' :: r => (false, r)
    | '-' :: r => (true, r)
    | r => (false, r)
  let mag : Option Nat :=
    match sb.2 with
    | '0' :: 'x' :: r => parseDigits 16 r
    | '0' :: 'X' :: r => parseDigits 16 r
    | '0' :: 'b' :: r => parseDigits 2 r
    | '0' :: 'B' :: r => parseDigits 2 r
    | '0' :: 'o' :: r => parseDigits 8 r
    | '0' :: 'O' :: r => parseDigits 8 r
    | '0' :: r => if r = [] then some 0 else parseDigits 8 r
    | r => parseDigits 10 r
  match mag with
  | none => none
  | some m =>
    if sb.1 then
      if (m : Int) ≤ 2 ^ 63 then some (-(m : Int)) else none
    else
      if (m : Int) < 2 ^ 63 then some (m : Int) else none

/-- `interpretValue`: an identifier token becomes `Ident`, an integer
literal becomes `Constant`, anything else is an error. -/
def interpretValue (tok : String) : Except PErr Value :=
  if isMacroIdent tok then .ok (.ident tok)
  else
    match parseIntLiteral tok with
    | some v => .ok (.const v)
    | none => .error .notValueToken

mutual

/-- `parseOr`: `or := and ('||' and)*`.  The mutual recursion is embedded
with fuel decremented per call; between two consecutive token consumptions
the Go parser makes at most three nested calls, so the fuel supplied by
`parseExprT` is never exhausted. -/
def parseOrF : Nat → TokStream → PRes (Expr × TokStream)
  | 0, _ => .outOfFuel
  | f + 1, ts =>
    match parseAndF f ts with
    | .success (l, ts1) => parseOrLoopF f l ts1
    | .panicked => .panicked
    | .outOfFuel => .outOfFuel
    | .errored e => .errored e

/-- The `('||' and)*` loop of `parseOr`. -/
def parseOrLoopF : Nat → Expr → TokStream → PRes (Expr × TokStream)
  | 0, _, _ => .outOfFuel
  | f + 1, left, ts =>
    if ts.peekTok "||" then
      match parseAndF f { ts with idx := ts.idx + 1 } with
      | .success (r, ts1) => parseOrLoopF f (.or left r) ts1
      | .panicked => .panicked
      | .outOfFuel => .outOfFuel
      | .errored e => .errored e
    else .success (left, ts)

/-- `parseAnd`: `and := unary ('&&' unary)*`. -/
def parseAndF : Nat → TokStream → PRes (Expr × TokStream)
  | 0, _ => .outOfFuel
  | f + 1, ts =>
    match parseUnaryF f ts with
    | .success (l, ts1) => parseAndLoopF f l ts1
    | .panicked => .panicked
    | .outOfFuel => .outOfFuel
    | .errored e => .errored e

/-- The `('&&' unary)*` loop of `parseAnd`. -/
def parseAndLoopF : Nat → Expr → TokStream → PRes (Expr × TokStream)
  | 0, _, _ => .outOfFuel
  | f + 1, left, ts =>
    if ts.peekTok "&&" then
      match parseUnaryF f { ts with idx := ts.idx + 1 } with
      | .success (r, ts1) => parseAndLoopF f (.and left r) ts1
      | .panicked => .panicked
      | .outOfFuel => .outOfFuel
      | .errored e => .errored e
    else .success (left, ts)

/-- `parseUnary`: negation, parenthesised expression, `defined` test with
optional parentheses, or a primary (one value token, optionally followed by
a comparison operator and a right operand; a bare token becomes
`tok != 0`). -/
def parseUnaryF : Nat → TokStream → PRes (Expr × TokStream)
  | 0, _ => .outOfFuel
  | f + 1, ts =>
    if ts.peekTok "!" then
      match parseUnaryF f { ts with idx := ts.idx + 1 } with
      | .success (e, ts1) => .success (.not e, ts1)
      | .panicked => .panicked
      | .outOfFuel => .outOfFuel
      | .errored er => .errored er
    else if ts.peekTok "(" then
      match parseOrF f { ts with idx := ts.idx + 1 } with
      | .success (e, ts1) =>
        match ts1.consume ")" with
        | .ok ts2 => .success (e, ts2)
        | .error er => .errored er
      | .panicked => .panicked
      | .outOfFuel => .outOfFuel
      | .errored er => .errored er
    else if ts.peekTok "defined" then
      let ts1 : TokStream := { ts with idx := ts.idx + 1 }
      if ts1.peekTok "(" then
        match TokStream.nextT { ts1 with idx := ts1.idx + 1 } with
        | none => .panicked
        | some (name, ts2) =>
          match ts2.consume ")" with
          | .ok ts3 => .success (.defined name, ts3)
          | .error er => .errored er
      else
        match ts1.nextT with
        | none => .panicked
        | some (name, ts2) => .success (.defined name, ts2)
    else
      match ts.nextT with
      | none => .panicked
      | some (tok, ts1) =>
        if decide (ts1.idx < ts1.tokens.length) &&
            isBinaryCompareOperator (ts1.tokens.getD ts1.idx "") then
          match ts1.nextT with
          | none => .panicked
          | some (opTok, ts2) =>
            match interpretValue tok with
            | .error er => .errored er
            | .ok lv =>
              match ts2.nextT with
              | none => .panicked  -- Go: ts.next() panics when the operator ends the line
              | some (rTok, ts3) =>
                match interpretValue rTok with
                | .error er => .errored er
                | .ok rv =>
                  match toCmpOp opTok with
                  | none => .panicked  -- unreachable: guarded by isBinaryCompareOperator
                  | some op => .success (.cmp ⟨lv, op, rv⟩, ts3)
        else .success (.cmp ⟨.ident tok, .ne, .const 0⟩, ts1)

end

/-- `parseExpr`: collect the logical line's tokens and run the
recursive-descent parser on them; tokens left unconsumed by the grammar are
silently discarded, as in the Go code. -/
def parseExprT (toks : List String) : PRes (Expr × List String) :=
  match collectExprTokensF (toks.length + 1) toks with
  | .success (collected, rest) =>
    match parseOrF (3 * collected.length + 3) ⟨collected, 0⟩ with
    | .success (e, _) => .success (e, rest)
    | .panicked => .panicked
    | .outOfFuel => .outOfFuel
    | .errored e => .errored e
  | .panicked => .panicked
  | .outOfFuel => .outOfFuel
  | .errored e => .errored e

/-! #### Token-level directive handling and the main loop -/

/-- Result of dispatching one directive: the Go panics, a returned error
(which aborts `parse` with the partial result), or the updated state and
remaining tokens. -/
inductive StepRes where
  | panicked
  | fuelOut
  | errored (p : PState) (e : PErr)
  | ok (p : PState) (rest : List String)
deriving DecidableEq, Repr

/-- `strings.Contains(s, "\"")`. -/
def containsQuote (s : String) : Bool :=
  s.toList.contains '"'

/-- `strings.Trim(s, "\"")`: strip leading and trailing double quotes. -/
def trimQuotes (s : String) : String :=
  String.mk (((s.toList.dropWhile fun c => c = '"').reverse.dropWhile
    fun c => c = '"').reverse)

/-- `handleInclude`: read the path token; `<` introduces the bracketed
form whose next token is the path; a token without any quote character is
the malformed form treated as bracketed; the recorded path is
quote-trimmed and the current guard is attached. -/
def handleInclude (toks : List String) (p : PState) : StepRes :=
  match nextSkipEOL toks with
  | none => .errored p .unexpectedEOFInclude
  | some (inc, rest) =>
    if inc = "<" then
      match nextSkipEOL rest with
      | none => .errored p .unexpectedEOFBracket
      | some (inc2, rest2) => .ok (addIncludeCore (trimQuotes inc2) true p) rest2
    else
      .ok (addIncludeCore (trimQuotes inc) (!containsQuote inc) p) rest

/-- `handleIfdef`: read the identifier, then push the
`Defined`/`!Defined` condition and open a new group.  `isNdef` is the Go
`kind == "#ifndef"` test. -/
def dirIfdef (isNdef : Bool) (toks : List String) (p : PState) : StepRes :=
  match parseIdent toks with
  | .error e => .errored p e
  | .ok (ident, rest) => .ok (handleIfdefCore isNdef ident p) rest

/-- `handleIf`: parse the guard expression, then push it and open a new
group. -/
def dirIf (toks : List String) (p : PState) : StepRes :=
  match parseExprT toks with
  | .errored e => .errored p e
  | .panicked => .panicked
  | .outOfFuel => .fuelOut
  | .success (e, rest) => .ok (handleIfCore e p) rest

/-- `handleElse` at token level (no argument tokens). -/
def dirElse (toks : List String) (p : PState) : StepRes :=
  match handleElse p with
  | none => .panicked
  | some p1 => .ok p1 toks

/-- `handleElif` with kind `#elif`: run the guard first (on the malformed
case the expression tokens are not consumed), then parse the expression
and push the qualified branch. -/
def dirElif (toks : List String) (p : PState) : StepRes :=
  match elifGuard p with
  | (none, p1) => .ok p1 toks
  | (some g, p1) =>
    match parseExprT toks with
    | .errored e => .errored p1 e
    | .panicked => .panicked
    | .outOfFuel => .fuelOut
    | .success (e, rest) =>
      match handleElifPush e g p1 with
      | none => .panicked
      | some p2 => .ok p2 rest

/-- `handleElif` with kind `#elifdef`/`#elifndef`: run the guard first,
then read the identifier and push the qualified branch.  `isNdef` is the
Go `kind == "#elifndef"` test. -/
def dirElifIdent (isNdef : Bool) (toks : List String) (p : PState) : StepRes :=
  match elifGuard p with
  | (none, p1) => .ok p1 toks
  | (some g, p1) =>
    match parseIdent toks with
    | .error e => .errored p1 e
    | .ok (ident, rest) =>
      let ex := if isNdef then Expr.not (.defined ident) else .defined ident
      match handleElifPush ex g p1 with
      | none => .panicked
      | some p2 => .ok p2 rest

/-- `parseDirective`: dispatch on the directive token; unknown `#…` tokens
fall through without effect.  Built from the same core handlers as
`runDir`. -/
def parseDirective (tok : String) (toks : List String) (p : PState) : StepRes :=
  match tok with
  | "#include" => handleInclude toks p
  | "#ifdef" => dirIfdef false toks p
  | "#ifndef" => dirIfdef true toks p
  | "#if" => dirIf toks p
  | "#else" => dirElse toks p
  | "#elif" => dirElif toks p
  | "#elifdef" => dirElifIdent false toks p
  | "#elifndef" => dirElifIdent true toks p
  | "#endif" => .ok (handleEndifCore p) toks
  | _ => .ok p toks

/-- Outcome of `parse`: a Go panic, the fuel artefact, or the returned
`(SourceInfo, error)` pair (`err = none` is the nil error). -/
inductive POut where
  | panicked
  | fuelOut
  | finished (si : SourceInfo) (err : Option PErr)
deriving DecidableEq, Repr

/-- The main loop of `parse`: read tokens (skipping `<EOL>`), track the
previous token, dispatch `#`-prefixed tokens to `parseDirective` (an error
aborts with the partial result), and consume one token of lookahead after
`main` to check for `(` with previous token `int`.  At EOF the in-memory
reader cannot fail, so the returned error is nil.  Each iteration consumes
at least one token, so the fuel supplied by `ParseSource` is never
exhausted. -/
def parseLoopF : Nat → List String → PState → POut
  | 0, _, _ => .fuelOut
  | fuel + 1, toks, p =>
    match nextSkipEOL toks with
    | none => .finished p.sourceInfo none
    | some (tok, rest) =>
      let prev := p.lastToken
      let p1 : PState := { p with lastToken := tok }
      if tok.toList.head? = some '#' then  -- strings.HasPrefix(token, "#")
        match parseDirective tok rest p1 with
        | .panicked => .panicked
        | .fuelOut => .fuelOut
        | .errored p2 e => .finished p2.sourceInfo (some e)
        | .ok p2 rest2 => parseLoopF fuel rest2 p2
      else if tok = "main" then
        match nextSkipEOL rest with
        | none => parseLoopF fuel [] p1
        | some (tok2, rest2) =>
          if tok2 = "(" ∧ prev = "int" then
            parseLoopF fuel rest2
              { p1 with sourceInfo := { p1.sourceInfo with hasMain := true } }
          else parseLoopF fuel rest2 p1
      else parseLoopF fuel rest p1

/-- `ParseSource`: tokenize the in-memory input and run the extractor from
the fresh state. -/
def ParseSource (input : String) : POut :=
  let toks := tokenize input.toList
  parseLoopF (toks.length + 1) toks initPState

/-! ### Source grouper

Modelled from the spec: the implementation of the source grouper
(`groupSourcesByUnits` in `language/cc/source_groups.go`) is not among the
given sources — only its test file is — so this section follows spec §4.4
word by word: initial groups keyed by base-name, edges from non-system
unconditional includes resolved by base-name against known files with
self-edges skipped, strongly-connected components (mutual reachability
classes) merged into a group named after the lexicographically smallest
member, and `depends_on` holding only edges leaving the component. -/

/-- A group of source files compiled together. -/
structure Group where
  sources : List String
  dependsOn : List String
  subGroups : List String
deriving DecidableEq, Repr

/-- Insertion into a sorted string list. -/
def insertStr (x : String) : List String → List String
  | [] => [x]
  | y :: ys => if x ≤ y then x :: y :: ys else y :: insertStr x ys

/-- Sorting of a string list (insertion sort). -/
def sortStrs : List String → List String
  | [] => []
  | x :: xs => insertStr x (sortStrs xs)

/-- Modelled from the spec: the base-name of a file path, directory and
extension stripped (`a/b.cc → b`). -/
def stem (f : String) : String :=
  let base := ((f.splitOn "/").getLast?).getD f
  let pieces := base.splitOn "."
  if 2 ≤ pieces.length then String.intercalate "." pieces.dropLast else base

/-- Modelled from the spec: the initial group ids — one per base-name of
an input file. -/
def groupIds (files : List String) : List String :=
  (files.map stem).dedup

/-- Modelled from the spec: the directed edges of the group graph.  For
each non-system, unconditional include of a file, the owning group is
found by base-name match against the known files; self-edges are
skipped. -/
def groupEdges (files : List String) (info : String → SourceInfo) : List (String × String) :=
  files.flatMap fun f =>
    (info f).includes.filterMap fun inc =>
      if !inc.isSystemInclude ∧ inc.condition = none then
        let tgt := stem inc.path
        if tgt ∈ groupIds files ∧ tgt ≠ stem f then some (stem f, tgt) else none
      else none

/-- Edge relation of the group graph. -/
def edgeRel (es : List (String × String)) (a b : String) : Prop :=
  (a, b) ∈ es

/-- Reachability along the group edges. -/
def Reach (es : List (String × String)) (a b : String) : Prop :=
  Relation.ReflTransGen (edgeRel es) a b

/-- One round of the reachable-set computation: add the targets of all
edges leaving the current set. -/
def reachStep (es : List (String × String)) (s : Finset String) : Finset String :=
  s ∪ (es.filterMap fun e => if e.1 ∈ s then some e.2 else none).toFinset

/-- The set of ids reachable from `a`: iterate `reachStep` until the
(cardinality-bounded) fixpoint is certainly reached. -/
def reachSet (es : List (String × String)) (a : String) : Finset String :=
  (reachStep es)^[(insert a (es.map Prod.snd).toFinset).card] {a}

/-- Decidable reachability test. -/
def reachb (es : List (String × String)) (a b : String) : Bool :=
  b ∈ reachSet es a

/-- Mutual reachability: `a` and `b` lie in the same strongly-connected
component. -/
def sameSCC (es : List (String × String)) (a b : String) : Bool :=
  reachb es a b && reachb es b a

/-- The strongly-connected component of `a` among the group ids. -/
def sccClass (files : List String) (info : String → SourceInfo) (a : String) : List String :=
  (groupIds files).filter fun b => sameSCC (groupEdges files info) a b

/-- The id of the (possibly merged) group owning `a`: the
lexicographically smallest member of its component. -/
def classRep (files : List String) (info : String → SourceInfo) (a : String) : String :=
  ((sccClass files info a).min?).getD a

/-- Modelled from the spec: `group_sources` — the output map from group id
to group, with components of size > 1 merged (sources joined and sorted,
`sub_groups` recording the member ids) and `depends_on` holding the
deduplicated, sorted representatives of edges leaving the component. -/
def groupSourcesByUnits (files : List String) (info : String → SourceInfo) :
    List (String × Group) :=
  ((groupIds files).map (classRep files info)).dedup.map fun r =>
    (r,
      { sources := sortStrs (files.filter fun f => classRep files info (stem f) = r)
        dependsOn := sortStrs ((groupEdges files info).filterMap fun e =>
            if classRep files info e.1 = r ∧ classRep files info e.2 ≠ r then
              some (classRep files info e.2)
            else none).dedup
        subGroups :=
          if 1 < (sccClass files info r).length then sortStrs (sccClass files info r)
          else [] })

/-- The `depends_on` relation induced by the grouper's output. -/
def dependsRel (files : List String) (info : String → SourceInfo) (a b : String) : Prop :=
  ∃ g, (a, g) ∈ groupSourcesByUnits files info ∧ b ∈ g.dependsOn

/-! ## Theorems

### Condition-solver correctness (C1, C9) -/

/-- Truth of one DNF literal under a macro set, as the per-platform checks
of `evalConjunct` perform it. -/
def litHolds (lit : MacroTest) (m : Macros) : Prop :=
  match lit.Comparsion with
  | some c => c.evalC m = !lit.Negated
  | none =>
    if lit.Negated then lookupMac m lit.Macro = none
    else (lookupMac m lit.Macro).isSome = true

/-- Negation normal form: `Not` wraps only atomic literals. -/
inductive IsNNF : Expr → Prop
  | defined (n : String) : IsNNF (.defined n)
  | cmp (c : Compare) : IsNNF (.cmp c)
  | notDefined (n : String) : IsNNF (.not (.defined n))
  | notCmp (c : Compare) : IsNNF (.not (.cmp c))
  | and {l r : Expr} : IsNNF l → IsNNF r → IsNNF (.and l r)
  | or {l r : Expr} : IsNNF l → IsNNF r → IsNNF (.or l r)

theorem evalE_nnfAux (m : Macros) :
    ∀ (e : Expr) (neg : Bool),
      (nnfAux e neg).evalE m = if neg then !(e.evalE m) else e.evalE m := by
  intro e
  induction e with
  | defined n => intro neg; cases neg <;> simp [nnfAux, Expr.evalE]
  | cmp c => intro neg; cases neg <;> simp [nnfAux, Expr.evalE]
  | not x ih =>
    intro neg
    cases neg <;> simp [nnfAux, Expr.evalE, ih]
  | and l r ihl ihr =>
    intro neg
    cases neg <;> simp [nnfAux, Expr.evalE, ihl, ihr]
  | or l r ihl ihr =>
    intro neg
    cases neg <;> simp [nnfAux, Expr.evalE, ihl, ihr]

theorem isNNF_nnfAux : ∀ (e : Expr) (neg : Bool), IsNNF (nnfAux e neg) := by
  intro e
  induction e with
  | defined n =>
    intro neg
    cases neg
    · exact IsNNF.defined n
    · exact IsNNF.notDefined n
  | cmp c =>
    intro neg
    cases neg
    · exact IsNNF.cmp c
    · exact IsNNF.notCmp c
  | not x ih => intro neg; simpa [nnfAux] using ih (!neg)
  | and l r ihl ihr =>
    intro neg
    cases neg
    · exact IsNNF.and (ihl false) (ihr false)
    · exact IsNNF.or (ihl true) (ihr true)
  | or l r ihl ihr =>
    intro neg
    cases neg
    · exact IsNNF.or (ihl false) (ihr false)
    · exact IsNNF.and (ihl true) (ihr true)

theorem isNNF_toNNF (e : Expr) : IsNNF (toNegationNormalForm e) :=
  isNNF_nnfAux e false

theorem evalE_toNNF (e : Expr) (m : Macros) :
    (toNegationNormalForm e).evalE m = e.evalE m := by
  simpa using evalE_nnfAux m e false

/-- Operator flipping negates the evaluation of a comparison. -/
theorem evalC_negate (c : Compare) (m : Macros) :
    c.negate.evalC m = !(c.evalC m) := by
  obtain ⟨l, op, r⟩ := c
  cases op <;>
    simp only [Compare.negate, CmpOp.negate, Compare.evalC, CmpOp.apply] <;>
    rw [← decide_not] <;>
    refine decide_eq_decide.mpr ?_ <;>
    omega

/-- Soundness of the `And`-over-`Or` distribution: some conjunction of the
DNF holds exactly when the normal-form expression evaluates to true. -/
theorem exprToDnf_sound (m : Macros) :
    ∀ {e : Expr}, IsNNF e →
      ((∃ g ∈ exprToDnf e, ∀ lit ∈ g, litHolds lit m) ↔ e.evalE m = true) := by
  intro e h
  induction h with
  | defined n =>
    simp [exprToDnf, extractMacro, litHolds, Expr.evalE]
  | cmp c =>
    simp [exprToDnf, litHolds, Expr.evalE]
  | notDefined n =>
    simp [exprToDnf, extractMacro, litHolds, Expr.evalE, Option.isSome_iff_exists]
  | notCmp c =>
    simp [exprToDnf, litHolds, Expr.evalE, evalC_negate]
  | and hl hr ihl ihr =>
    simp only [Expr.evalE, Bool.and_eq_true]
    rw [← ihl, ← ihr]
    constructor
    · rintro ⟨g, hg, hall⟩
      simp only [exprToDnf, List.mem_flatMap, List.mem_map] at hg
      obtain ⟨gl, hgl, gr, hgr, rfl⟩ := hg
      refine ⟨⟨gl, hgl, ?_⟩, ⟨gr, hgr, ?_⟩⟩
      · intro lit hlit; exact hall lit (List.mem_append_left _ hlit)
      · intro lit hlit; exact hall lit (List.mem_append_right _ hlit)
    · rintro ⟨⟨gl, hgl, hal⟩, ⟨gr, hgr, har⟩⟩
      refine ⟨gl ++ gr, ?_, ?_⟩
      · simp only [exprToDnf, List.mem_flatMap, List.mem_map]
        exact ⟨gl, hgl, gr, hgr, rfl⟩
      · intro lit hlit
        rcases List.mem_append.mp hlit with h | h
        · exact hal lit h
        · exact har lit h
  | or hl hr ihl ihr =>
    simp only [Expr.evalE, Bool.or_eq_true]
    rw [← ihl, ← ihr]
    constructor
    · rintro ⟨g, hg, hall⟩
      rcases List.mem_append.mp (by simpa [exprToDnf] using hg) with h | h
      · exact Or.inl ⟨g, h, hall⟩
      · exact Or.inr ⟨g, h, hall⟩
    · rintro (⟨g, hg, hall⟩ | ⟨g, hg, hall⟩)
      · exact ⟨g, by simp [exprToDnf]; exact Or.inl hg, hall⟩
      · exact ⟨g, by simp [exprToDnf]; exact Or.inr hg, hall⟩

theorem mem_lsAdd {s : PlatSet} {q p : Platform} :
    p ∈ lsAdd s q ↔ p ∈ s ∨ p = q := by
  unfold lsAdd
  split
  · rename_i hq
    constructor
    · exact Or.inl
    · rintro (h | rfl)
      · exact h
      · exact hq
  · simp [or_comm]

theorem nodup_lsAdd {s : PlatSet} {q : Platform} (h : s.Nodup) :
    (lsAdd s q).Nodup := by
  unfold lsAdd
  split
  · exact h
  · rename_i hq
    simpa [List.nodup_append] using ⟨h, hq⟩

/-- Membership in a `foldl` of conditional `lsAdd` steps. -/
theorem mem_foldl_lsAdd (P : Platform × Macros → Bool) :
    ∀ (l : List (Platform × Macros)) (init : PlatSet) (p : Platform),
      p ∈ l.foldl (fun acc q => if P q then lsAdd acc q.1 else acc) init ↔
        p ∈ init ∨ ∃ m, (p, m) ∈ l ∧ P (p, m) := by
  intro l
  induction l with
  | nil => simp
  | cons q rest ih =>
    intro init p
    rw [List.foldl_cons, ih]
    by_cases hq : P q
    · rw [if_pos hq, mem_lsAdd]
      constructor
      · rintro ((h | rfl) | ⟨m, hm, hPm⟩)
        · exact Or.inl h
        · refine Or.inr ⟨q.2, ?_, ?_⟩
          · rw [Prod.mk.eta]
            exact List.mem_cons_self _ _
          · rw [Prod.mk.eta]
            exact hq
        · exact Or.inr ⟨m, List.mem_cons_of_mem _ hm, hPm⟩
      · rintro (h | ⟨m, hm, hPm⟩)
        · exact Or.inl (Or.inl h)
        · rcases List.mem_cons.mp hm with h | h
          · exact Or.inl (Or.inr (congrArg Prod.fst h))
          · exact Or.inr ⟨m, h, hPm⟩
    · rw [if_neg hq]
      constructor
      · rintro (h | ⟨m, hm, hPm⟩)
        · exact Or.inl h
        · exact Or.inr ⟨m, List.mem_cons_of_mem _ hm, hPm⟩
      · rintro (h | ⟨m, hm, hPm⟩)
        · exact Or.inl h
        · rcases List.mem_cons.mp hm with h | h
          · rw [← h] at hq
            exact absurd hPm hq
          · exact Or.inr ⟨m, h, hPm⟩

theorem mem_foldl_lsAdd_plain :
    ∀ (l : List Platform) (init : PlatSet) (p : Platform),
      p ∈ l.foldl lsAdd init ↔ p ∈ init ∨ p ∈ l := by
  intro l
  induction l with
  | nil => simp
  | cons q rest ih =>
    intro init p
    rw [List.foldl_cons, ih, mem_lsAdd]
    constructor
    · rintro ((h | rfl) | h)
      · exact Or.inl h
      · exact Or.inr (List.mem_cons_self _ _)
      · exact Or.inr (List.mem_cons_of_mem _ h)
    · rintro (h | h)
      · exact Or.inl (Or.inl h)
      · rcases List.mem_cons.mp h with rfl | h
        · exact Or.inl (Or.inr rfl)
        · exact Or.inr h

theorem nodup_foldl_lsAdd :
    ∀ (l : List Platform) (init : PlatSet), init.Nodup → (l.foldl lsAdd init).Nodup := by
  intro l
  induction l with
  | nil => intro init h; simpa using h
  | cons q rest ih =>
    intro init h
    rw [List.foldl_cons]
    exact ih _ (nodup_lsAdd h)

theorem mem_listToSet {l : List Platform} {p : Platform} :
    p ∈ listToSet l ↔ p ∈ l := by
  unfold listToSet
  rw [mem_foldl_lsAdd_plain]
  simp

theorem mem_lsJoin {s t : PlatSet} {p : Platform} :
    p ∈ lsJoin s t ↔ p ∈ s ∨ p ∈ t :=
  mem_foldl_lsAdd_plain t s p

/-- A key of a duplicate-free association list is looked up to its unique
value. -/
theorem lookupPlat_eq_of_mem {pm : PlatformMacros} {p : Platform} {m : Macros}
    (hn : (pm.map Prod.fst).Nodup) (hm : (p, m) ∈ pm) :
    lookupPlat pm p = some m := by
  induction pm with
  | nil => cases hm
  | cons q rest ih =>
    rw [List.map_cons, List.nodup_cons] at hn
    rcases List.mem_cons.mp hm with rfl | hm2
    · simp [lookupPlat]
    · rw [lookupPlat]
      split
      · rename_i hq
        exact absurd (by simpa [← hq] using List.mem_map_of_mem Prod.fst hm2) hn.1
      · exact ih hn.2 hm2

theorem mem_platformsForMacro {name : String} {pm : PlatformMacros} {p : Platform}
    (hn : (pm.map Prod.fst).Nodup) :
    p ∈ platformsForMacro name pm ↔ (lookupMac (macrosOf pm p) name).isSome = true := by
  unfold platformsForMacro
  rw [mem_foldl_lsAdd (fun q => (lookupMac q.2 name).isSome)]
  simp only [List.not_mem_nil, false_or]
  constructor
  · rintro ⟨m, hm, hP⟩
    rw [macrosOf, lookupPlat_eq_of_mem hn hm]
    exact hP
  · intro h
    rw [macrosOf] at h
    cases hl : lookupPlat pm p with
    | none => rw [hl] at h; simp [lookupMac] at h
    | some m =>
      rw [hl] at h
      refine ⟨m, ?_, h⟩
      clear h hn
      induction pm with
      | nil => cases hl
      | cons q rest ih =>
        rw [lookupPlat] at hl
        split at hl
        · rename_i hq
          cases hl
          exact hq ▸ List.mem_cons_self _ _
        · exact List.mem_cons_of_mem _ (ih hl)

/-- `litHolds` on a presence literal. -/
theorem litHolds_none {lit : MacroTest} (hc : lit.Comparsion = none) (m : Macros) :
    litHolds lit m ↔
      (if lit.Negated then lookupMac m lit.Macro = none
       else (lookupMac m lit.Macro).isSome = true) := by
  obtain ⟨ma, ng, cp⟩ := lit
  cases hc
  exact Iff.rfl

/-- `litHolds` on a comparison literal. -/
theorem litHolds_some {lit : MacroTest} {c : Compare} (hc : lit.Comparsion = some c)
    (m : Macros) : litHolds lit m ↔ c.evalC m = !lit.Negated := by
  obtain ⟨ma, ng, cp⟩ := lit
  cases hc
  exact Iff.rfl

/-- Failure of the presence test, in lookup form. -/
theorem not_mem_platformsForMacro {name : String} {pm : PlatformMacros} {p : Platform}
    (hn : (pm.map Prod.fst).Nodup) :
    p ∉ platformsForMacro name pm ↔ lookupMac (macrosOf pm p) name = none := by
  rw [mem_platformsForMacro hn]
  cases lookupMac (macrosOf pm p) name <;> simp

theorem mem_evalConjunct {pm : PlatformMacros} (hn : (pm.map Prod.fst).Nodup) :
    ∀ (conj : List MacroTest) (s : PlatSet) (p : Platform),
      p ∈ evalConjunct pm conj s ↔
        p ∈ s ∧ ∀ lit ∈ conj, litHolds lit (macrosOf pm p) := by
  intro conj
  induction conj with
  | nil => simp [evalConjunct]
  | cons lit rest ih =>
    intro s p
    rw [evalConjunct]
    cases hc : lit.Comparsion with
    | some c =>
      rw [ih]
      rw [List.forall_mem_cons, litHolds_some hc]
      simp only [List.mem_filter, decide_eq_true_eq]
      tauto
    | none =>
      simp only [List.forall_mem_cons, litHolds_none hc]
      cases hneg : lit.Negated with
      | true =>
        simp only [eq_self_iff_true, if_true]
        have hs1 : ∀ q : Platform,
            q ∈ lsDiff s (platformsForMacro lit.Macro pm) ↔
              q ∈ s ∧ lookupMac (macrosOf pm q) lit.Macro = none := by
          intro q
          unfold lsDiff
          rw [List.mem_filter]
          simp only [decide_eq_true_eq]
          rw [not_mem_platformsForMacro hn]
        split
        · rename_i hempty
          rw [hempty]
          simp only [List.not_mem_nil, false_iff]
          rintro ⟨hps, hfirst, _⟩
          have hm := (hs1 p).mpr ⟨hps, hfirst⟩
          rw [hempty] at hm
          cases hm
        · rw [ih, hs1]
          tauto
      | false =>
        simp only [Bool.false_eq_true, if_false]
        have hs1 : ∀ q : Platform,
            q ∈ lsInter s (platformsForMacro lit.Macro pm) ↔
              q ∈ s ∧ (lookupMac (macrosOf pm q) lit.Macro).isSome = true := by
          intro q
          unfold lsInter
          rw [List.mem_filter]
          simp only [decide_eq_true_eq]
          rw [mem_platformsForMacro hn]
        split
        · rename_i hempty
          rw [hempty]
          simp only [List.not_mem_nil, false_iff]
          rintro ⟨hps, hfirst, _⟩
          have hm := (hs1 p).mpr ⟨hps, hfirst⟩
          rw [hempty] at hm
          cases hm
        · rw [ih, hs1]
          tauto

theorem mem_matched_foldl (pm : PlatformMacros) (enabled : PlatSet) :
    ∀ (d : List (List MacroTest)) (init : PlatSet) (p : Platform),
      p ∈ d.foldl (fun acc conj => lsJoin acc (evalConjunct pm conj enabled)) init ↔
        p ∈ init ∨ ∃ conj ∈ d, p ∈ evalConjunct pm conj enabled := by
  intro d
  induction d with
  | nil => simp
  | cons conj rest ih =>
    intro init p
    rw [List.foldl_cons, ih, mem_lsJoin]
    constructor
    · rintro ((h | h) | ⟨c2, hc2, h⟩)
      · exact Or.inl h
      · exact Or.inr ⟨conj, List.mem_cons_self _ _, h⟩
      · exact Or.inr ⟨c2, List.mem_cons_of_mem _ hc2, h⟩
    · rintro (h | ⟨c2, hc2, h⟩)
      · exact Or.inl (Or.inl h)
      · rcases List.mem_cons.mp hc2 with rfl | hc3
        · exact Or.inl (Or.inr h)
        · exact Or.inr ⟨c2, hc3, h⟩

theorem nodup_lsJoin {s : PlatSet} (t : PlatSet) (h : s.Nodup) : (lsJoin s t).Nodup :=
  nodup_foldl_lsAdd t s h

theorem nodup_matched_foldl (pm : PlatformMacros) (enabled : PlatSet) :
    ∀ (d : List (List MacroTest)) (init : PlatSet), init.Nodup →
      (d.foldl (fun acc conj => lsJoin acc (evalConjunct pm conj enabled)) init).Nodup := by
  intro d
  induction d with
  | nil => intro init h; simpa using h
  | cons conj rest ih =>
    intro init h
    rw [List.foldl_cons]
    exact ih _ (nodup_lsJoin _ h)

theorem mem_insertPlat {x p : Platform} : ∀ {l : List Platform},
    p ∈ insertPlat x l ↔ p = x ∨ p ∈ l := by
  intro l
  induction l with
  | nil => simp [insertPlat]
  | cons y ys ih =>
    rw [insertPlat]
    split
    · simp
    · simp only [List.mem_cons, ih]
      tauto

theorem nodup_insertPlat {x : Platform} : ∀ {l : List Platform},
    l.Nodup → x ∉ l → (insertPlat x l).Nodup := by
  intro l
  induction l with
  | nil => intro _ _; simp [insertPlat]
  | cons y ys ih =>
    intro hn hx
    rw [List.nodup_cons] at hn
    rw [insertPlat]
    split
    · exact List.nodup_cons.mpr ⟨hx, List.nodup_cons.mpr hn⟩
    · rw [List.nodup_cons]
      refine ⟨?_, ih hn.2 (fun h => hx (List.mem_cons_of_mem _ h))⟩
      rw [mem_insertPlat]
      rintro (rfl | h)
      · exact hx (List.mem_cons_self _ _)
      · exact hn.1 h

theorem sorted_insertPlat {x : Platform} : ∀ {l : List Platform},
    l.Sorted platLe → (insertPlat x l).Sorted platLe := by
  intro l
  induction l with
  | nil => intro _; simp [insertPlat]
  | cons y ys ih =>
    intro hs
    rw [List.sorted_cons] at hs
    rw [insertPlat]
    split
    · rename_i hxy
      rw [List.sorted_cons]
      refine ⟨?_, List.sorted_cons.mpr hs⟩
      intro b hb
      rcases List.mem_cons.mp hb with rfl | hb2
      · exact hxy
      · exact IsTrans.trans _ _ _ hxy (hs.1 b hb2)
    · rename_i hxy
      rw [List.sorted_cons]
      refine ⟨?_, ih hs.2⟩
      intro b hb
      rcases mem_insertPlat.mp hb with rfl | hb2
      · rcases IsTotal.total (r := platLe) b y with h | h
        · exact absurd h hxy
        · exact h
      · exact hs.1 b hb2

theorem mem_sortPlats {p : Platform} : ∀ {l : List Platform},
    p ∈ sortPlats l ↔ p ∈ l := by
  intro l
  induction l with
  | nil => simp [sortPlats]
  | cons y ys ih =>
    rw [sortPlats, mem_insertPlat, ih]
    simp

theorem nodup_sortPlats : ∀ {l : List Platform}, l.Nodup → (sortPlats l).Nodup := by
  intro l
  induction l with
  | nil => intro _; simp [sortPlats]
  | cons y ys ih =>
    intro hn
    rw [List.nodup_cons] at hn
    rw [sortPlats]
    exact nodup_insertPlat (ih hn.2) (fun h => hn.1 (mem_sortPlats.mp h))

theorem sorted_sortPlats : ∀ (l : List Platform), (sortPlats l).Sorted platLe := by
  intro l
  induction l with
  | nil => simp [sortPlats]
  | cons y ys ih => exact sorted_insertPlat ih

/-- On an actual expression, `PlatformsForExpr` returns `some` of the
sorted matched set: the nil-slice fixup makes the empty and non-empty
branches agree. -/
theorem platformsForExpr_some (e : Expr) (pm : PlatformMacros) :
    PlatformsForExpr (some e) pm =
      some (sortPlats ((toDNF e).foldl
        (fun acc conj => lsJoin acc (evalConjunct pm conj (listToSet (pm.map Prod.fst)))) [])) := by
  by_cases h :
      (toDNF e).foldl
        (fun acc conj => lsJoin acc (evalConjunct pm conj (listToSet (pm.map Prod.fst)))) [] =
        [] <;>
    simp [PlatformsForExpr, h]

/-- **C1**: for every non-nil guard expression `e` and platform-to-macros
table `pm` (with pairwise-distinct platform keys, as a Go map has),
`PlatformsForExpr` returns exactly the platforms of `pm` on which `e`
evaluates to true under that platform's macros, without duplicates and
sorted by the platform ordering — the DNF conversion with the set-algebra
fast path for presence literals and the per-platform slow path for
comparisons agrees with direct evaluation of `e` on each platform. -/
theorem c1_PlatformsForExpr_correct {pm : PlatformMacros}
    (hn : (pm.map Prod.fst).Nodup) (e : Expr) :
    ∃ l, PlatformsForExpr (some e) pm = some l ∧
      (∀ p, p ∈ l ↔ p ∈ pm.map Prod.fst ∧ e.evalE (macrosOf pm p) = true) ∧
      l.Nodup ∧ l.Sorted platLe := by
  refine ⟨_, platformsForExpr_some e pm, ?_, ?_, sorted_sortPlats _⟩
  · intro p
    rw [mem_sortPlats, mem_matched_foldl]
    simp only [List.not_mem_nil, false_or, mem_evalConjunct hn, mem_listToSet]
    constructor
    · rintro ⟨conj, hconj, hmem, hall⟩
      refine ⟨hmem, ?_⟩
      rw [← evalE_toNNF]
      exact (exprToDnf_sound (macrosOf pm p) (isNNF_toNNF e)).mp ⟨conj, hconj, hall⟩
    · rintro ⟨hmem, heval⟩
      rw [← evalE_toNNF] at heval
      obtain ⟨conj, hconj, hall⟩ :=
        (exprToDnf_sound (macrosOf pm p) (isNNF_toNNF e)).mpr heval
      exact ⟨conj, hconj, hmem, hall⟩
  · exact nodup_sortPlats
      (nodup_matched_foldl pm (listToSet (pm.map Prod.fst)) (toDNF e) [] List.nodup_nil)

/-- Witness for C1 at a concrete one-platform table and a `defined` test. -/
theorem c1_PlatformsForExpr_correct_witness :
    ∃ l,
      PlatformsForExpr (some (.defined "LINUX"))
        [(⟨"linux", "arm64"⟩, [("LINUX", 1)])] = some l ∧
      (∀ p, p ∈ l ↔
        p ∈ ([(⟨"linux", "arm64"⟩, [("LINUX", 1)])] : PlatformMacros).map Prod.fst ∧
        (Expr.defined "LINUX").evalE
          (macrosOf [(⟨"linux", "arm64"⟩, [("LINUX", 1)])] p) = true) ∧
      l.Nodup ∧ l.Sorted platLe :=
  @c1_PlatformsForExpr_correct [(⟨"linux", "arm64"⟩, [("LINUX", 1)])] (by decide)
    (.defined "LINUX")

/-- **C9**: `PlatformsForExpr` yields `none` exactly on the nil expression:
`none` input maps to `none`, and every actual expression yields `some`
list (possibly empty), for every platform-to-macros table. -/
theorem c9_PlatformsForExpr_none_iff_nil :
    (∀ pm : PlatformMacros, PlatformsForExpr none pm = none) ∧
      (∀ (e : Expr) (pm : PlatformMacros), ∃ l, PlatformsForExpr (some e) pm = some l) :=
  ⟨fun _ => rfl, fun e pm => ⟨_, platformsForExpr_some e pm⟩⟩

/-- **C4** (code bug): on the input `"#if\n"` — a `#if` guard immediately
truncated by end of line — `ParseSource` does not return a
`(SourceInfo, error)` pair: the expression parser's `tokensStream.next`
hits the exhausted stream and panics (`"unexpected EOL in expression"`). -/
theorem c4_ParseSource_truncated_if_panics : ParseSource "#if\n" = .panicked := by
  decide

/-- **C5** (code bug): after the platform table's `init`, `__x86_64__` is
not defined on an x86_64 platform but is defined (value 1) on the
corresponding aarch64 platform: the x86-64 macro family is registered via
`archOsPlatforms` called with architecture `aarch64`. -/
theorem c5_x86_64_macro_on_aarch64 :
    KnownPlatformMacros ⟨"linux", "x86_64"⟩ "__x86_64__" = none ∧
      KnownPlatformMacros ⟨"linux", "aarch64"⟩ "__x86_64__" = some 1 := by
  decide

/-- **C10**: after reading a `main` token the parser always consumes the
next token as lookahead for `(`, even when that token is a directive;
when the `int main (` pattern is not completed the loop resumes after the
lookahead token, so the directive is never dispatched — concretely,
`main\n#include "x.h"\n` parses with an empty include list. -/
theorem c10_main_lookahead_swallows_directive :
    (∀ (fuel : Nat) (toks rest rest2 : List String) (tok2 : String) (p : PState),
        nextSkipEOL toks = some ("main", rest) →
        nextSkipEOL rest = some (tok2, rest2) →
        ¬(tok2 = "(" ∧ p.lastToken = "int") →
        parseLoopF (fuel + 1) toks p =
          parseLoopF fuel rest2 { p with lastToken := "main" }) ∧
      ParseSource "main\n#include \"x.h\"\n" = .finished ⟨[], false⟩ none := by
  constructor
  · intro fuel toks rest rest2 tok2 p h1 h2 h3
    simp only [parseLoopF, h1, h2]
    rw [if_neg (by decide : ¬(("main").toList.head? = some '#'))]
    rw [if_pos trivial, if_neg h3]
  · decide

/-- Witness for C10's lookahead step at a concrete state. -/
theorem c10_main_lookahead_swallows_directive_witness :
    parseLoopF 5 ["main", "#include"] initPState =
      parseLoopF 4 [] { initPState with lastToken := "main" } :=
  c10_main_lookahead_swallows_directive.1 4 ["main", "#include"] ["#include"] []
    "#include" initPState rfl rfl (by decide)

/-! ### Single directive steps on an open block -/

/-- `runDirs` distributes over concatenation. -/
theorem runDirs_append : ∀ (as bs : List Dir) (p : PState),
    runDirs (as ++ bs) p = (runDirs as p).bind (runDirs bs) := by
  intro as
  induction as with
  | nil => intro bs p; rfl
  | cons d ds ih =>
    intro bs p
    rw [List.cons_append, runDirs, runDirs]
    cases runDir d p with
    | none => rfl
    | some p1 => exact ih bs p1

/-- `#else` on an open block whose seen-branch list is `x :: xs`: the
branch condition is replaced by the negation of the disjunction of the
seen branches, which is also recorded in the group. -/
theorem runDir_delse_eq (si : SourceInfo) (lt : String) (cs : List Expr) (c : Expr)
    (gs : List (List Expr)) (x : Expr) (xs : List Expr) :
    runDir .delse ⟨si, lt, cs ++ [c], gs ++ [x :: xs]⟩ =
      some ⟨si, lt, cs ++ [.not (xs.foldl Expr.or x)],
        gs ++ [(x :: xs) ++ [.not (xs.foldl Expr.or x)]]⟩ := by
  simp [runDir, handleElse, currentGroup, popCondition, orAll, appendToCurrentGroup,
    pushCondition, List.getLast?_concat, List.dropLast_concat]

/-- `#elif e` on an open block whose seen-branch list is `x :: xs`: the
branch condition is replaced by `e ∧ ¬(x ∨ …)` and the raw `e` is
recorded in the group. -/
theorem runDir_delif_eq (e : Expr) (si : SourceInfo) (lt : String) (cs : List Expr)
    (c : Expr) (gs : List (List Expr)) (x : Expr) (xs : List Expr) :
    runDir (.delif e) ⟨si, lt, cs ++ [c], gs ++ [x :: xs]⟩ =
      some ⟨si, lt, cs ++ [.and e (.not (xs.foldl Expr.or x))],
        gs ++ [(x :: xs) ++ [e]]⟩ := by
  simp [runDir, elifGuard, handleElifPush, currentGroup, popCondition, orAll,
    appendToCurrentGroup, pushCondition, List.getLast?_concat, List.dropLast_concat]

/-- `#elifdef n` on an open block, analogously. -/
theorem runDir_delifdef_eq (n : String) (si : SourceInfo) (lt : String) (cs : List Expr)
    (c : Expr) (gs : List (List Expr)) (x : Expr) (xs : List Expr) :
    runDir (.delifdef n) ⟨si, lt, cs ++ [c], gs ++ [x :: xs]⟩ =
      some ⟨si, lt, cs ++ [.and (.defined n) (.not (xs.foldl Expr.or x))],
        gs ++ [(x :: xs) ++ [.defined n]]⟩ := by
  simp [runDir, elifGuard, handleElifPush, currentGroup, popCondition, orAll,
    appendToCurrentGroup, pushCondition, List.getLast?_concat, List.dropLast_concat]

/-- `#elifndef n` on an open block, analogously. -/
theorem runDir_delifndef_eq (n : String) (si : SourceInfo) (lt : String) (cs : List Expr)
    (c : Expr) (gs : List (List Expr)) (x : Expr) (xs : List Expr) :
    runDir (.delifndef n) ⟨si, lt, cs ++ [c], gs ++ [x :: xs]⟩ =
      some ⟨si, lt, cs ++ [.and (.not (.defined n)) (.not (xs.foldl Expr.or x))],
        gs ++ [(x :: xs) ++ [.not (.defined n)]]⟩ := by
  simp [runDir, elifGuard, handleElifPush, currentGroup, popCondition, orAll,
    appendToCurrentGroup, pushCondition, List.getLast?_concat, List.dropLast_concat]

/-- `#endif` pops both stacks. -/
theorem runDir_dendif_eq (si : SourceInfo) (lt : String) (cs : List Expr) (c : Expr)
    (gs : List (List Expr)) (g : List Expr) :
    runDir .dendif ⟨si, lt, cs ++ [c], gs ++ [g]⟩ = some ⟨si, lt, cs, gs⟩ := by
  simp [runDir, handleEndifCore, popCondition, popGroup, List.dropLast_concat]

/-- **C6** (amended): an include path token that is not `<` is recorded
with `isSystemInclude = true` exactly when the token contains no quote
character; a path malformed by an unterminated quote still contains its
opening quote, so it is recorded as a NON-system include (quotes
trimmed), unlike the bracketed form. -/
theorem c6_include_system_iff_no_quote :
    ∀ (toks rest : List String) (inc : String) (p : PState),
      nextSkipEOL toks = some (inc, rest) → inc ≠ "<" →
      handleInclude toks p =
        .ok (addIncludeCore (trimQuotes inc) (!containsQuote inc) p) rest := by
  intro toks rest inc p h1 h2
  unfold handleInclude
  rw [h1]
  simp only [if_neg h2]

/-- Witness for C6 at the unterminated-quote token `"stdio.h`. -/
theorem c6_include_system_iff_no_quote_witness :
    handleInclude ["\"stdio.h"] initPState =
      .ok (addIncludeCore (trimQuotes "\"stdio.h") (!containsQuote "\"stdio.h")
        initPState) [] :=
  c6_include_system_iff_no_quote ["\"stdio.h"] [] "\"stdio.h" initPState rfl (by decide)

/-- Counterexample to C6 as stated: the unterminated-quote include
`#include "stdio.h` is recorded with `isSystemInclude = false`, not
`true`. -/
theorem c6_counterexample :
    ParseSource "#include \"stdio.h\n" =
      .finished ⟨[⟨"stdio.h", false, none⟩], false⟩ none := by
  decide

/-- **C3** (amended): for in-memory input `parse` tolerates structurally
unmatched `#else`/`#endif` with a nil error (and `#endif` never errors on
any state), but it does return a non-nil directive error together with
the partial `SourceInfo` when a guard expression fails to parse. -/
theorem c3_parse_error_surfaces :
    ParseSource "#endif\n#else\n#include \"x.h\"\n" =
        .finished ⟨[⟨"x.h", false, none⟩], false⟩ none ∧
      ParseSource "#if (A\n#include \"x.h\"\n" =
        .finished ⟨[], false⟩ (some (.consumeFail ")" "<EOF>")) ∧
      (∀ (toks : List String) (p : PState), parseDirective "#endif" toks p =
        .ok (handleEndifCore p) toks) := by
  exact ⟨by decide, by decide, fun toks p => rfl⟩

/-- Counterexample to C3 as stated: the in-memory input `#if (A` (an
unbalanced parenthesis in the guard) makes `parse` return a non-nil
error, not a nil one. -/
theorem c3_counterexample :
    ParseSource "#if (A\n" = .finished ⟨[], false⟩ (some (.consumeFail ")" "<EOF>")) := by
  decide

/-- **C7** (amended): a `#elif` after `#else` in the same block is NOT
ignored: it is processed as any other `#elif` (pop the `#else` branch,
push `e ∧ ¬(disjunction of seen branches)`), so subsequent includes carry
that qualified condition rather than the one the `#elif`-free input would
give. -/
theorem c7_elif_after_else_processed :
    (∀ (e : Expr) (si : SourceInfo) (lt : String) (cs : List Expr) (c : Expr)
        (gs : List (List Expr)) (x : Expr) (xs : List Expr),
        runDir (.delif e) ⟨si, lt, cs ++ [c], gs ++ [x :: xs]⟩ =
          some ⟨si, lt, cs ++ [.and e (.not (xs.foldl Expr.or x))],
            gs ++ [(x :: xs) ++ [e]]⟩) ∧
      ParseSource "#if A\n#else\n#elif B\n#include \"x.h\"\n#endif\n" =
        .finished ⟨[⟨"x.h", false,
          some (.and (.cmp ⟨.ident "B", .ne, .const 0⟩)
            (.not (.or (.cmp ⟨.ident "A", .ne, .const 0⟩)
              (.not (.cmp ⟨.ident "A", .ne, .const 0⟩)))))⟩], false⟩ none :=
  ⟨fun e si lt cs c gs x xs => runDir_delif_eq e si lt cs c gs x xs, by decide⟩

/-- Counterexample to C7 as stated: deleting the post-`#else` `#elif B`
changes the parse result (the include's condition differs), so the
directive is not ignored. -/
theorem c7_counterexample :
    ParseSource "#if A\n#else\n#elif B\n#include \"x.h\"\n#endif\n" ≠
      ParseSource "#if A\n#else\n#include \"x.h\"\n#endif\n" := by
  decide

/-! ### Balanced nested blocks (C2) -/

theorem someBind {α β : Type _} (a : α) (f : α → Option β) : (some a).bind f = f a :=
  rfl

theorem runDirs_cons (d : Dir) (ds : List Dir) (p : PState) :
    runDirs (d :: ds) p = (runDir d p).bind (runDirs ds) := by
  cases h : runDir d p <;> simp [runDirs, h, Option.bind]

theorem runDir_dinclude_eq (path : String) (sys : Bool) (p : PState) :
    runDir (.dinclude path sys) p = some (addIncludeCore path sys p) :=
  rfl

/-- Running a block body from an open block keeps both stacks below the
top entries untouched and keeps the top group non-empty. -/
theorem bdirs_run : ∀ {ds : List Dir}, BDirs ds →
    ∀ (si : SourceInfo) (lt : String) (cs : List Expr) (c : Expr)
      (gs : List (List Expr)) (x : Expr) (xs : List Expr),
      ∃ (si' : SourceInfo) (c' x' : Expr) (xs' : List Expr),
        runDirs ds ⟨si, lt, cs ++ [c], gs ++ [x :: xs]⟩ =
          some ⟨si', lt, cs ++ [c'], gs ++ [x' :: xs']⟩ := by
  intro ds h
  induction h with
  | nil =>
    intro si lt cs c gs x xs
    exact ⟨si, c, x, xs, rfl⟩
  | inc path sys hds ih =>
    intro si lt cs c gs x xs
    rw [runDirs_cons, runDir_dinclude_eq, someBind]
    exact ih _ lt cs c gs x xs
  | selse hds ih =>
    intro si lt cs c gs x xs
    rw [runDirs_cons, runDir_delse_eq, someBind]
    exact ih si lt cs (.not (xs.foldl Expr.or x)) gs x (xs ++ [.not (xs.foldl Expr.or x)])
  | selif e hds ih =>
    intro si lt cs c gs x xs
    rw [runDirs_cons, runDir_delif_eq, someBind]
    exact ih si lt cs (.and e (.not (xs.foldl Expr.or x))) gs x (xs ++ [e])
  | selifdef n hds ih =>
    intro si lt cs c gs x xs
    rw [runDirs_cons, runDir_delifdef_eq, someBind]
    exact ih si lt cs (.and (.defined n) (.not (xs.foldl Expr.or x))) gs x
      (xs ++ [.defined n])
  | selifndef n hds ih =>
    intro si lt cs c gs x xs
    rw [runDirs_cons, runDir_delifndef_eq, someBind]
    exact ih si lt cs (.and (.not (.defined n)) (.not (xs.foldl Expr.or x))) gs x
      (xs ++ [.not (.defined n)])
  | blk e hbody hds ihbody ihds =>
    intro si lt cs c gs x xs
    rw [runDirs_cons,
      show runDir (.dif e) ⟨si, lt, cs ++ [c], gs ++ [x :: xs]⟩ =
        some ⟨si, lt, (cs ++ [c]) ++ [e], (gs ++ [x :: xs]) ++ [[e]]⟩ from rfl,
      someBind, runDirs_append]
    obtain ⟨si1, c1, x1, xs1, h1⟩ := ihbody si lt (cs ++ [c]) e (gs ++ [x :: xs]) e []
    rw [h1, someBind, runDirs_cons, runDir_dendif_eq, someBind]
    exact ihds si1 lt cs c gs x xs
  | blkdef n hbody hds ihbody ihds =>
    intro si lt cs c gs x xs
    rw [runDirs_cons,
      show runDir (.difdef n) ⟨si, lt, cs ++ [c], gs ++ [x :: xs]⟩ =
        some ⟨si, lt, (cs ++ [c]) ++ [.defined n], (gs ++ [x :: xs]) ++ [[.defined n]]⟩
        from rfl,
      someBind, runDirs_append]
    obtain ⟨si1, c1, x1, xs1, h1⟩ :=
      ihbody si lt (cs ++ [c]) (.defined n) (gs ++ [x :: xs]) (.defined n) []
    rw [h1, someBind, runDirs_cons, runDir_dendif_eq, someBind]
    exact ihds si1 lt cs c gs x xs
  | blkndef n hbody hds ihbody ihds =>
    intro si lt cs c gs x xs
    rw [runDirs_cons,
      show runDir (.difndef n) ⟨si, lt, cs ++ [c], gs ++ [x :: xs]⟩ =
        some ⟨si, lt, (cs ++ [c]) ++ [.not (.defined n)],
          (gs ++ [x :: xs]) ++ [[.not (.defined n)]]⟩ from rfl,
      someBind, runDirs_append]
    obtain ⟨si1, c1, x1, xs1, h1⟩ :=
      ihbody si lt (cs ++ [c]) (.not (.defined n)) (gs ++ [x :: xs]) (.not (.defined n)) []
    rw [h1, someBind, runDirs_cons, runDir_dendif_eq, someBind]
    exact ihds si1 lt cs c gs x xs

/-- A neutral sequence (includes and complete nested blocks) restores
both stacks exactly. -/
theorem ndirs_run : ∀ {ds : List Dir}, NDirs ds →
    ∀ (si : SourceInfo) (lt : String) (condS : List Expr) (groupS : List (List Expr)),
      ∃ si', runDirs ds ⟨si, lt, condS, groupS⟩ = some ⟨si', lt, condS, groupS⟩ := by
  intro ds h
  induction h with
  | nil =>
    intro si lt condS groupS
    exact ⟨si, rfl⟩
  | inc path sys hds ih =>
    intro si lt condS groupS
    rw [runDirs_cons, runDir_dinclude_eq, someBind]
    exact ih _ lt condS groupS
  | blk e hbody hds ih =>
    intro si lt condS groupS
    rw [runDirs_cons,
      show runDir (.dif e) ⟨si, lt, condS, groupS⟩ =
        some ⟨si, lt, condS ++ [e], groupS ++ [[e]]⟩ from rfl,
      someBind, runDirs_append]
    obtain ⟨si1, c1, x1, xs1, h1⟩ := bdirs_run hbody si lt condS e groupS e []
    rw [h1, someBind, runDirs_cons, runDir_dendif_eq, someBind]
    exact ih si1 lt condS groupS
  | blkdef n hbody hds ih =>
    intro si lt condS groupS
    rw [runDirs_cons,
      show runDir (.difdef n) ⟨si, lt, condS, groupS⟩ =
        some ⟨si, lt, condS ++ [.defined n], groupS ++ [[.defined n]]⟩ from rfl,
      someBind, runDirs_append]
    obtain ⟨si1, c1, x1, xs1, h1⟩ := bdirs_run hbody si lt condS (.defined n) groupS
      (.defined n) []
    rw [h1, someBind, runDirs_cons, runDir_dendif_eq, someBind]
    exact ih si1 lt condS groupS
  | blkndef n hbody hds ih =>
    intro si lt condS groupS
    rw [runDirs_cons,
      show runDir (.difndef n) ⟨si, lt, condS, groupS⟩ =
        some ⟨si, lt, condS ++ [.not (.defined n)], groupS ++ [[.not (.defined n)]]⟩
        from rfl,
      someBind, runDirs_append]
    obtain ⟨si1, c1, x1, xs1, h1⟩ := bdirs_run hbody si lt condS (.not (.defined n))
      groupS (.not (.defined n)) []
    rw [h1, someBind, runDirs_cons, runDir_dendif_eq, someBind]
    exact ih si1 lt condS groupS

/-- **C2**: with the stacks in lockstep, an outer `#else` (or `#elif`)
that follows any neutral sequence of includes and complete nested
`#if…#endif` blocks pushes the negation of the disjunction of only the
outer block's seen branch expressions `x :: xs` (qualified by the new
expression in the `#elif` case): the nested blocks' branches are
discarded by their `#endif` and the outer block's memory is preserved. -/
theorem c2_outer_else_uses_only_outer_branches :
    ∀ {ds : List Dir}, NDirs ds →
    ∀ (si : SourceInfo) (lt : String) (cs : List Expr) (c : Expr)
      (gs : List (List Expr)) (x : Expr) (xs : List Expr),
      (∃ si', runDirs (ds ++ [.delse]) ⟨si, lt, cs ++ [c], gs ++ [x :: xs]⟩ =
          some ⟨si', lt, cs ++ [.not (xs.foldl Expr.or x)],
            gs ++ [(x :: xs) ++ [.not (xs.foldl Expr.or x)]]⟩) ∧
      (∀ e : Expr,
        ∃ si', runDirs (ds ++ [.delif e]) ⟨si, lt, cs ++ [c], gs ++ [x :: xs]⟩ =
          some ⟨si', lt, cs ++ [.and e (.not (xs.foldl Expr.or x))],
            gs ++ [(x :: xs) ++ [e]]⟩) := by
  intro ds h si lt cs c gs x xs
  obtain ⟨si1, h1⟩ := ndirs_run h si lt (cs ++ [c]) (gs ++ [x :: xs])
  constructor
  · refine ⟨si1, ?_⟩
    rw [runDirs_append, h1, someBind, runDirs_cons, runDir_delse_eq, someBind, runDirs]
  · intro e
    refine ⟨si1, ?_⟩
    rw [runDirs_append, h1, someBind, runDirs_cons, runDir_delif_eq, someBind, runDirs]

/-! ### Grouper reachability (C8) -/

theorem subset_reachStep (es : List (String × String)) (s : Finset String) :
    s ⊆ reachStep es s :=
  Finset.subset_union_left

theorem mem_iterate_self (es : List (String × String)) (a : String) :
    ∀ n : Nat, a ∈ (reachStep es)^[n] {a} := by
  intro n
  induction n with
  | zero => simp
  | succ n ih =>
    rw [Function.iterate_succ_apply']
    exact subset_reachStep es _ ih

theorem reach_of_mem_iterate (es : List (String × String)) (a : String) :
    ∀ (n : Nat) (b : String), b ∈ (reachStep es)^[n] {a} → Reach es a b := by
  intro n
  induction n with
  | zero =>
    intro b hb
    simp only [Function.iterate_zero, id_eq, Finset.mem_singleton] at hb
    exact hb ▸ Relation.ReflTransGen.refl
  | succ n ih =>
    intro b hb
    rw [Function.iterate_succ_apply'] at hb
    unfold reachStep at hb
    rcases Finset.mem_union.mp hb with h | h
    · exact ih b h
    · rw [List.mem_toFinset, List.mem_filterMap] at h
      obtain ⟨e, he, hcond⟩ := h
      split at hcond
      · rename_i hin
        injection hcond with hcond
        subst hcond
        exact (ih e.1 hin).tail he
      · cases hcond

theorem iterate_subset_targets (es : List (String × String)) (a : String) :
    ∀ n : Nat, (reachStep es)^[n] {a} ⊆ insert a (es.map Prod.snd).toFinset := by
  intro n
  induction n with
  | zero =>
    simp only [Function.iterate_zero, id_eq]
    exact Finset.singleton_subset_iff.mpr (Finset.mem_insert_self a _)
  | succ n ih =>
    rw [Function.iterate_succ_apply']
    intro b hb
    rcases Finset.mem_union.mp hb with h | h
    · exact ih h
    · rw [List.mem_toFinset, List.mem_filterMap] at h
      obtain ⟨e, he, hcond⟩ := h
      split at hcond
      · injection hcond with hcond
        subst hcond
        exact Finset.mem_insert_of_mem
          (List.mem_toFinset.mpr (List.mem_map_of_mem Prod.snd he))
      · cases hcond

theorem fix_or_card (es : List (String × String)) (a : String) :
    ∀ n : Nat, (reachStep es)^[n + 1] {a} = (reachStep es)^[n] {a} ∨
      n + 1 ≤ ((reachStep es)^[n] {a}).card := by
  intro n
  induction n with
  | zero =>
    right
    simp
  | succ n ih =>
    have hstep : (reachStep es)^[n + 1] {a} = (reachStep es)^[n] {a} →
        (reachStep es)^[n + 1 + 1] {a} = (reachStep es)^[n + 1] {a} := by
      intro h
      calc (reachStep es)^[n + 1 + 1] {a}
          = reachStep es ((reachStep es)^[n + 1] {a}) :=
            Function.iterate_succ_apply' (reachStep es) (n + 1) {a}
        _ = reachStep es ((reachStep es)^[n] {a}) := by rw [h]
        _ = (reachStep es)^[n + 1] {a} :=
            (Function.iterate_succ_apply' (reachStep es) n {a}).symm
    rcases ih with h | h
    · exact Or.inl (hstep h)
    · by_cases heq : (reachStep es)^[n + 1] {a} = (reachStep es)^[n] {a}
      · exact Or.inl (hstep heq)
      · right
        have hsub : (reachStep es)^[n] {a} ⊆ (reachStep es)^[n + 1] {a} := by
          rw [Function.iterate_succ_apply']
          exact subset_reachStep es _
        have hlt : ((reachStep es)^[n] {a}).card < ((reachStep es)^[n + 1] {a}).card :=
          Finset.card_lt_card
            (Finset.ssubset_iff_subset_ne.mpr ⟨hsub, fun hc => heq hc.symm⟩)
        omega

theorem reachStep_fixed (es : List (String × String)) (a : String) :
    reachStep es (reachSet es a) = reachSet es a := by
  unfold reachSet
  rcases fix_or_card es a (insert a (es.map Prod.snd).toFinset).card with h | h
  · exact (Function.iterate_succ_apply' (reachStep es) _ {a}).symm.trans h
  · exfalso
    have hle := Finset.card_le_card
      (iterate_subset_targets es a (insert a (es.map Prod.snd).toFinset).card)
    omega

theorem mem_reachSet_of_reach {es : List (String × String)} {a b : String}
    (h : Reach es a b) : b ∈ reachSet es a := by
  induction h with
  | refl => exact mem_iterate_self es a _
  | tail hab hbc ih =>
    rw [← reachStep_fixed es a]
    unfold reachStep
    apply Finset.mem_union_right
    rw [List.mem_toFinset, List.mem_filterMap]
    refine ⟨_, hbc, ?_⟩
    rw [if_pos ih]

theorem reach_iff_mem_reachSet {es : List (String × String)} {a b : String} :
    Reach es a b ↔ b ∈ reachSet es a :=
  ⟨mem_reachSet_of_reach, fun h => reach_of_mem_iterate es a _ b h⟩

theorem reachb_iff {es : List (String × String)} {a b : String} :
    reachb es a b = true ↔ Reach es a b := by
  unfold reachb
  rw [decide_eq_true_eq]
  exact reach_iff_mem_reachSet.symm

theorem sameSCC_iff {es : List (String × String)} {a b : String} :
    sameSCC es a b = true ↔ Reach es a b ∧ Reach es b a := by
  unfold sameSCC
  rw [Bool.and_eq_true, reachb_iff, reachb_iff]

theorem sameSCC_self {es : List (String × String)} {a : String} :
    sameSCC es a a = true :=
  sameSCC_iff.mpr ⟨Relation.ReflTransGen.refl, Relation.ReflTransGen.refl⟩

theorem sameSCC_symm {es : List (String × String)} {a b : String}
    (h : sameSCC es a b = true) : sameSCC es b a = true := by
  rw [sameSCC_iff] at h ⊢
  exact ⟨h.2, h.1⟩

theorem sameSCC_trans {es : List (String × String)} {a b c : String}
    (h1 : sameSCC es a b = true) (h2 : sameSCC es b c = true) :
    sameSCC es a c = true := by
  rw [sameSCC_iff] at h1 h2 ⊢
  exact ⟨h1.1.trans h2.1, h2.2.trans h1.2⟩

theorem sameSCC_classRep (files : List String) (info : String → SourceInfo)
    (a : String) :
    sameSCC (groupEdges files info) a (classRep files info a) = true := by
  unfold classRep
  cases hm : (sccClass files info a).min? with
  | none => exact sameSCC_self
  | some m =>
    have hmem : m ∈ sccClass files info a :=
      List.min?_mem (fun x y => min_choice x y) hm
    exact (List.mem_filter.mp hmem).2

theorem classRep_eq_of_sameSCC {files : List String} {info : String → SourceInfo}
    {u v : String} (hu : u ∈ groupIds files)
    (h : sameSCC (groupEdges files info) u v = true) :
    classRep files info u = classRep files info v := by
  have hcl : sccClass files info u = sccClass files info v := by
    unfold sccClass
    apply List.filter_congr
    intro x hx
    cases hux : sameSCC (groupEdges files info) u x with
    | true => exact (sameSCC_trans (sameSCC_symm h) hux).symm
    | false =>
      cases hvx : sameSCC (groupEdges files info) v x with
      | false => rfl
      | true =>
        have hc := sameSCC_trans h hvx
        rw [hux] at hc
        cases hc
  have hself : u ∈ sccClass files info u :=
    List.mem_filter.mpr ⟨hu, sameSCC_self⟩
  rw [hcl] at hself
  unfold classRep
  rw [hcl]
  cases hl : sccClass files info v with
  | nil =>
    rw [hl] at hself
    cases hself
  | cons y ys => rfl

theorem groupEdges_mem {files : List String} {info : String → SourceInfo}
    {u v : String} (h : (u, v) ∈ groupEdges files info) :
    u ∈ groupIds files ∧ v ∈ groupIds files ∧ v ≠ u := by
  unfold groupEdges at h
  rw [List.mem_flatMap] at h
  obtain ⟨f, hf, h⟩ := h
  rw [List.mem_filterMap] at h
  obtain ⟨inc, hinc, h⟩ := h
  split at h
  · have h2 : (if stem inc.path ∈ groupIds files ∧ stem inc.path ≠ stem f then
        some (stem f, stem inc.path) else none) = some (u, v) := h
    split at h2
    · rename_i hcond
      injection h2 with h2
      rw [Prod.mk.injEq] at h2
      obtain ⟨h3, h4⟩ := h2
      subst h3
      subst h4
      exact ⟨List.mem_dedup.mpr (List.mem_map_of_mem stem hf), hcond.1, hcond.2⟩
    · cases h2
  · cases h

theorem mem_insertStr {a x : String} : ∀ {l : List String},
    a ∈ insertStr x l ↔ a = x ∨ a ∈ l := by
  intro l
  induction l with
  | nil => simp [insertStr]
  | cons z zs ih =>
    by_cases h : x ≤ z <;> simp [insertStr, h, List.mem_cons, ih] <;> tauto

theorem mem_sortStrs {a : String} : ∀ {l : List String}, a ∈ sortStrs l ↔ a ∈ l := by
  intro l
  induction l with
  | nil => simp [sortStrs]
  | cons z zs ih =>
    rw [sortStrs, mem_insertStr, ih, List.mem_cons]

/-- The `dependsOn` field of a group in the grouper's output. -/
theorem output_dependsOn {files : List String} {info : String → SourceInfo}
    {gid : String} {grp : Group} (h : (gid, grp) ∈ groupSourcesByUnits files info) :
    grp.dependsOn = sortStrs (((groupEdges files info).filterMap fun e =>
      if classRep files info e.1 = gid ∧ classRep files info e.2 ≠ gid then
        some (classRep files info e.2)
      else none).dedup) := by
  unfold groupSourcesByUnits at h
  rw [List.mem_map] at h
  obtain ⟨r, hr, heq⟩ := h
  injection heq with h1 h2
  subst h1
  subst h2
  rfl

/-- A `dependsRel` step comes from an edge whose endpoints' representatives
are the two group ids. -/
theorem dependsRel_elim {files : List String} {info : String → SourceInfo}
    {a b : String} (h : dependsRel files info a b) :
    ∃ e ∈ groupEdges files info,
      classRep files info e.1 = a ∧ classRep files info e.2 = b ∧ b ≠ a := by
  obtain ⟨grp, hmem, hb⟩ := h
  rw [output_dependsOn hmem, mem_sortStrs, List.mem_dedup, List.mem_filterMap] at hb
  obtain ⟨e, he, hcond⟩ := hb
  split at hcond
  · rename_i hP
    injection hcond with hcond
    subst hcond
    exact ⟨e, he, hP.1, rfl, hP.2⟩
  · cases hcond

/-- `dependsRel` lands in the strict part of the reachability preorder. -/
theorem dependsRel_strict {files : List String} {info : String → SourceInfo}
    {a b : String} (h : dependsRel files info a b) :
    Reach (groupEdges files info) a b ∧ ¬ Reach (groupEdges files info) b a := by
  obtain ⟨e, he, h1, h2, hne⟩ := dependsRel_elim h
  obtain ⟨hu, hv, hvu⟩ := groupEdges_mem (show (e.1, e.2) ∈ groupEdges files info from he)
  have hs1 := sameSCC_classRep files info e.1
  have hs2 := sameSCC_classRep files info e.2
  rw [h1, sameSCC_iff] at hs1
  rw [h2, sameSCC_iff] at hs2
  have hedge : Reach (groupEdges files info) e.1 e.2 :=
    Relation.ReflTransGen.single he
  constructor
  · exact hs1.2.trans (hedge.trans hs2.1)
  · intro hba
    have huv : sameSCC (groupEdges files info) e.1 e.2 = true :=
      sameSCC_iff.mpr ⟨hedge, hs2.1.trans (hba.trans hs1.2)⟩
    have hcr := classRep_eq_of_sameSCC hu huv
    rw [h1, h2] at hcr
    exact hne hcr.symm

/-- Witness for C2: an outer `#if A` block containing one complete nested
block, then `#else` / `#elif e`. -/
theorem c2_outer_else_uses_only_outer_branches_witness :
    (∃ si', runDirs [.dif (.defined "N"), .dendif, .delse]
        ⟨⟨[], false⟩, "", [.defined "A"], [[.defined "A"]]⟩ =
        some ⟨si', "", [.not (.defined "A")],
          [[.defined "A", .not (.defined "A")]]⟩) ∧
      (∀ e : Expr, ∃ si', runDirs [.dif (.defined "N"), .dendif, .delif e]
          ⟨⟨[], false⟩, "", [.defined "A"], [[.defined "A"]]⟩ =
          some ⟨si', "", [.and e (.not (.defined "A"))], [[.defined "A", e]]⟩) :=
  c2_outer_else_uses_only_outer_branches
    (NDirs.blk (.defined "N") BDirs.nil NDirs.nil)
    ⟨[], false⟩ "" [] (.defined "A") [] (.defined "A") []

/-- **C8** (spec-modelled): for every input file list and file-to-info
map, in the grouper's output no group's `depends_on` list contains that
group's own id, and the graph induced by the `depends_on` edges is
acyclic: no id is related to itself by the transitive closure of
`dependsRel`. -/
theorem c8_grouper_output_acyclic (files : List String) (info : String → SourceInfo) :
    (∀ (gid : String) (grp : Group),
        (gid, grp) ∈ groupSourcesByUnits files info → gid ∉ grp.dependsOn) ∧
      ∀ g : String, ¬ Relation.TransGen (dependsRel files info) g g := by
  constructor
  · intro gid grp hmem hself
    rw [output_dependsOn hmem, mem_sortStrs, List.mem_dedup, List.mem_filterMap]
      at hself
    obtain ⟨e, he, hcond⟩ := hself
    split at hcond
    · rename_i hP
      injection hcond with hcond
      exact hP.2 hcond
    · cases hcond
  · intro g hg
    have hstrict : ∀ x y : String, Relation.TransGen (dependsRel files info) x y →
        Reach (groupEdges files info) x y ∧ ¬ Reach (groupEdges files info) y x := by
      intro x y hxy
      induction hxy with
      | single h => exact dependsRel_strict h
      | tail hxz hzy ih =>
        have h2 := dependsRel_strict hzy
        exact ⟨ih.1.trans h2.1, fun hyx => ih.2 (h2.1.trans hyx)⟩
    have hgg := hstrict g g hg
    exact hgg.2 hgg.1

end GazelleCC
